import Mathlib

/-!
# logspout-logstash: a verification development of `logstash.go`

The adapter consumes log records, resolves per-record options, builds a
`LogstashMessage`, serialises it with `encoding/json` and writes it to a
connection, reconnecting once when a write fails.

Conventions of the embedding:

* a Go `string` is a sequence of bytes (`GoString`), not necessarily valid UTF-8;
* a Go slice `[]T` is `Option (List T)`, with `none` for the nil slice;
* a Go `map[string]string` is `Option Entries`, with `none` for the nil map and
  an association list with one entry per key otherwise; two maps are compared
  by their content (`MapEq`);
* `json.Marshal` and `json.Unmarshal` are those of the Go standard library, for
  the types the adapter uses them at: the string encoder with HTML escaping,
  the struct, slice and map encoders, the scanner, `unquote` and the decoder
  into a string, a `[]string`, a `map[string]string` and a `LogstashMessage`;
* calls that leave the process (transport lookup, dial, write, HTTP) take their
  result from an explicit script and are recorded in a trace of events;
* `log.Fatal` ends the process: the run stops with its `fatal` flag set.
-/

namespace Logstash


/-! ## Go strings -/

/-- A Go string: a sequence of bytes, each a natural number below 256. -/
abbrev GoString := List Nat

/-- Go `utf8.RuneError`, the replacement character U+FFFD. -/
def RuneError : Nat := 0xFFFD

/-- Go `utf8.AppendRune`: the UTF-8 encoding of a rune; a surrogate or a value
above U+10FFFF is encoded as `RuneError`. -/
def encodeRune (r : Nat) : GoString :=
  if r < 0x80 then [r]
  else if r < 0x800 then [0xC0 + r / 64, 0x80 + r % 64]
  else if 0x10FFFF < r ∨ (0xD800 ≤ r ∧ r ≤ 0xDFFF) then [0xEF, 0xBF, 0xBD]
  else if r < 0x10000 then [0xE0 + r / 4096, 0x80 + r / 64 % 64, 0x80 + r % 64]
  else [0xF0 + r / 262144, 0x80 + r / 4096 % 64, 0x80 + r / 64 % 64, 0x80 + r % 64]

/-- The lower bound on the second byte of an encoding that starts with `s0`
(the table `acceptRanges` of package `utf8`). -/
def accLo (s0 : Nat) : Nat :=
  if s0 = 0xE0 then 0xA0 else if s0 = 0xF0 then 0x90 else 0x80

/-- The upper bound on the second byte of an encoding that starts with `s0`. -/
def accHi (s0 : Nat) : Nat :=
  if s0 = 0xED then 0x9F else if s0 = 0xF4 then 0x8F else 0xBF

/-- `utf8.DecodeRuneInString` after a first byte `s0` of an encoding of two
bytes. -/
def decode2 (s0 : Nat) : GoString → Nat × Nat
  | s1 :: _ =>
    if s1 < accLo s0 ∨ accHi s0 < s1 then (RuneError, 1)
    else (s0 % 32 * 64 + s1 % 64, 2)
  | _ => (RuneError, 1)

/-- `utf8.DecodeRuneInString` after a first byte `s0` of an encoding of three
bytes. -/
def decode3 (s0 : Nat) : GoString → Nat × Nat
  | s1 :: s2 :: _ =>
    if s1 < accLo s0 ∨ accHi s0 < s1 then (RuneError, 1)
    else if s2 < 0x80 ∨ 0xBF < s2 then (RuneError, 1)
    else (s0 % 16 * 4096 + s1 % 64 * 64 + s2 % 64, 3)
  | _ => (RuneError, 1)

/-- `utf8.DecodeRuneInString` after a first byte `s0` of an encoding of four
bytes. -/
def decode4 (s0 : Nat) : GoString → Nat × Nat
  | s1 :: s2 :: s3 :: _ =>
    if s1 < accLo s0 ∨ accHi s0 < s1 then (RuneError, 1)
    else if s2 < 0x80 ∨ 0xBF < s2 then (RuneError, 1)
    else if s3 < 0x80 ∨ 0xBF < s3 then (RuneError, 1)
    else (s0 % 8 * 262144 + s1 % 64 * 4096 + s2 % 64 * 64 + s3 % 64, 4)
  | _ => (RuneError, 1)

/-- Go `utf8.DecodeRuneInString`: the first rune of `s` and its width in bytes;
`(RuneError, 1)` for a byte that starts no valid encoding (also one cut short
by the end of the string), `(RuneError, 0)` for the empty string. -/
def decodeRune (s : GoString) : Nat × Nat :=
  match s with
  | [] => (RuneError, 0)
  | s0 :: t =>
    if s0 < 0x80 then (s0, 1)
    else if s0 < 0xC2 ∨ 0xF4 < s0 then (RuneError, 1)
    else if s0 < 0xE0 then decode2 s0 t
    else if s0 < 0xF0 then decode3 s0 t
    else decode4 s0 t

/-- The bytes of a string literal of the source (its UTF-8 encoding). -/
def lit (s : String) : GoString :=
  s.toList.flatMap (fun c => encodeRune c.toNat)

/-- Go `strings.HasPrefix`. -/
def HasPrefix (s pre : GoString) : Bool :=
  pre.isPrefixOf s

/-- Go `strings.TrimPrefix`. -/
def TrimPrefix (s pre : GoString) : GoString :=
  if HasPrefix s pre then s.drop pre.length else s

/-- A Unicode scalar value: a code point that is not a surrogate. -/
def IsScalar (r : Nat) : Prop :=
  r < 0xD800 ∨ (0xE000 ≤ r ∧ r ≤ 0x10FFFF)

/-- Valid UTF-8: the encoding of a sequence of Unicode scalar values. -/
def ValidUTF8 (s : GoString) : Prop :=
  ∃ runes : List Nat, (∀ r ∈ runes, IsScalar r) ∧ s = runes.flatMap encodeRune

/-! ## Go maps of type `map[string]string` -/

/-- The entries of a non-nil map, one per key. -/
abbrev Entries := List (GoString × GoString)

/-- A Go `map[string]string`; `none` is the nil map. -/
abbrev GoMap := Option Entries

/-- The two-result index expression `v, ok := m[k]` on a non-nil map. -/
def Entries.get : Entries → GoString → Option GoString
  | [], _ => none
  | (k', v) :: rest, k => if k' = k then some v else Entries.get rest k

/-- The assignment `m[k] = v` on a non-nil map. -/
def Entries.set : Entries → GoString → GoString → Entries
  | [], k, v => [(k, v)]
  | (k', v') :: rest, k, v =>
    if k' = k then (k', v) :: rest else (k', v') :: Entries.set rest k v

/-- The index expression `v, ok := m[k]`; reading a nil map finds nothing. -/
def GoMap.get (m : GoMap) (k : GoString) : Option GoString :=
  match m with
  | none => none
  | some es => es.get k

/-- Two maps hold the same keys with the same values. -/
def MapEq (m₁ m₂ : GoMap) : Prop :=
  ∀ k, m₁.get k = m₂.get k

/-- Byte-wise comparison of two strings, Go `a <= b` on strings. -/
def strLe : GoString → GoString → Bool
  | [], _ => true
  | _ :: _, [] => false
  | a :: as, b :: bs => if a < b then true else if b < a then false else strLe as bs

/-- Insertion of an entry into a list of entries ordered by key. -/
def insertEntry (e : GoString × GoString) : Entries → Entries
  | [] => [e]
  | f :: rest => if strLe e.1 f.1 then e :: f :: rest else f :: insertEntry e rest

/-- The entries of a map in increasing order of their keys, the order in which
`encoding/json` writes a map. -/
def sortEntries : Entries → Entries
  | [] => []
  | e :: rest => insertEntry e (sortEntries rest)

/-- A map as the decoder and the merge build it: one entry for a key, keys and
values valid UTF-8. -/
def Entries.WellFormed (es : Entries) : Prop :=
  (es.map Prod.fst).Nodup ∧ ∀ e ∈ es, ValidUTF8 e.1 ∧ ValidUTF8 e.2

/-! ## `encoding/json`: the encoder, for the types of `LogstashMessage`

The encoder and the decoder are those of the Go standard library (version 1.22). -/

/-- The digit of `n` (below 16) in the table `hex` of `encoding/json`. -/
def hexDigit (n : Nat) : Nat :=
  if n < 10 then 0x30 + n else 0x57 + n

/-- The table `htmlSafeSet`: the ASCII bytes written as they are. The others are
the control characters, the double quote, the backslash and `<`, `>`, `&`. -/
def htmlSafe (b : Nat) : Bool :=
  0x20 ≤ b && b != 0x22 && b != 0x5C && b != 0x3C && b != 0x3E && b != 0x26

/-- The escape `appendString` writes for an ASCII byte that is not in
`htmlSafeSet`: a backslash before a quote or a backslash, the escapes of one
letter for backspace, form feed, newline, carriage return and tab, and
`\u00XX` for the other control characters and for `<`, `>`, `&`. -/
def escapeByte (b : Nat) : GoString :=
  if b = 0x5C ∨ b = 0x22 then [0x5C, b]
  else if b = 0x08 then lit "\\b"
  else if b = 0x0C then lit "\\f"
  else if b = 0x0A then lit "\\n"
  else if b = 0x0D then lit "\\r"
  else if b = 0x09 then lit "\\t"
  else lit "\\u00" ++ [hexDigit (b / 16), hexDigit (b % 16)]

/-- The loop of `appendString` (with `escapeHTML` set, as `json.Marshal` does):
the escaped content of a string. Invalid UTF-8 is written as `\ufffd`, U+2028
and U+2029 are escaped, every other non-ASCII rune is copied. The first
argument bounds the number of iterations; the length of the string suffices. -/
def appendStringLoop : Nat → GoString → GoString
  | 0, _ => []
  | _, [] => []
  | fuel + 1, b :: rest =>
    if b < 0x80 then
      if htmlSafe b then b :: appendStringLoop fuel rest
      else escapeByte b ++ appendStringLoop fuel rest
    else
      let (c, size) := decodeRune (b :: rest)
      if c = RuneError ∧ size = 1 then
        lit "\\ufffd" ++ appendStringLoop fuel rest
      else if c = 0x2028 ∨ c = 0x2029 then
        lit "\\u202" ++ [hexDigit (c % 16)] ++ appendStringLoop fuel (rest.drop (size - 1))
      else
        (b :: rest).take size ++ appendStringLoop fuel (rest.drop (size - 1))

/-- The function `appendString` of `encoding/json`: a JSON string literal. -/
def appendString (src : GoString) : GoString :=
  [0x22] ++ appendStringLoop src.length src ++ [0x22]

/-- The values held by the fields of `LogstashMessage`. -/
inductive GoValue where
  | str (s : GoString)
  | strSlice (xs : Option (List GoString))
  | strMap (m : GoMap)

/-- The function `isEmptyValue` of `encoding/json`: a string, slice or map of
length zero (the nil slice and the nil map have length zero). -/
def isEmptyValue : GoValue → Bool
  | .str s => s.length == 0
  | .strSlice xs => (xs.getD []).length == 0
  | .strMap m => (m.getD []).length == 0

/-- The elements of an array or the members of an object, separated by commas. -/
def joinComma : List GoString → GoString
  | [] => []
  | [x] => x
  | x :: y :: rest => x ++ [0x2C] ++ joinComma (y :: rest)

/-- The encoders of `encoding/json` for a string, a `[]string` and a
`map[string]string`: a nil slice or map is written `null`, the entries of a map
are written in increasing order of their keys. -/
def encodeValue : GoValue → GoString
  | .str s => appendString s
  | .strSlice none => lit "null"
  | .strSlice (some xs) => [0x5B] ++ joinComma (xs.map appendString) ++ [0x5D]
  | .strMap none => lit "null"
  | .strMap (some es) =>
    [0x7B] ++ joinComma ((sortEntries es).map
      (fun e => appendString e.1 ++ [0x3A] ++ appendString e.2)) ++ [0x7D]

/-- A field of a struct as `encoding/json` sees it: the name given by its tag,
whether the tag says `omitempty`, and its value. -/
structure Field where
  name : GoString
  omitEmpty : Bool
  value : GoValue

/-- The loop of the struct encoder: `next` is the byte written before the next
field that is kept, `{` at first and `,` afterwards. The names of the tags of
`LogstashMessage` need no escaping. -/
def encodeFields : Nat → List Field → GoString
  | next, [] => if next = 0x7B then lit "\x7b\x7d" else [0x7D]
  | next, f :: rest =>
    if f.omitEmpty && isEmptyValue f.value then encodeFields next rest
    else [next] ++ [0x22] ++ f.name ++ [0x22, 0x3A] ++ encodeValue f.value
      ++ encodeFields 0x2C rest

/-! ## `encoding/json`: the scanner and the decoder -/

/-- A JSON value as the scanner of `encoding/json` delimits it; a string holds
its content after `unquote`, a number its text. -/
inductive JVal where
  | null
  | bool (b : Bool)
  | num (raw : GoString)
  | str (s : GoString)
  | arr (xs : List JVal)
  | obj (ms : List (GoString × JVal))

/-- The function `isSpace` of the scanner: space, tab, carriage return, newline. -/
def isSpace (c : Nat) : Bool :=
  c == 0x20 || c == 0x09 || c == 0x0D || c == 0x0A

/-- The input after the white space the scanner skips between tokens. -/
def skipSpace : GoString → GoString
  | [] => []
  | c :: r => if isSpace c then skipSpace r else c :: r

/-- A decimal digit. -/
def isDigit (c : Nat) : Bool :=
  0x30 ≤ c && c ≤ 0x39

/-- A hexadecimal digit, of either case. -/
def isHex (c : Nat) : Bool :=
  isDigit c || (0x61 ≤ c && c ≤ 0x66) || (0x41 ≤ c && c ≤ 0x46)

/-- The value of a hexadecimal digit. -/
def hexVal (c : Nat) : Nat :=
  if c ≤ 0x39 then c - 0x30 else if 0x61 ≤ c then c - 0x61 + 10 else c - 0x41 + 10

/-- The byte after a backslash in the escapes of one letter. -/
def isSimpleEscape (e : Nat) : Bool :=
  e == 0x62 || e == 0x66 || e == 0x6E || e == 0x72 || e == 0x74 ||
    e == 0x5C || e == 0x2F || e == 0x22

/-- The scanner inside a string literal, after the opening quote (`stateInString`
and the states of an escape): the raw content up to the closing quote and the
input after it; `none` for a control character, an escape that is not JSON or
a literal that does not end. -/
def scanString : GoString → Option (GoString × GoString)
  | [] => none
  | c :: r =>
    if c = 0x22 then some ([], r)
    else if c = 0x5C then
      match r with
      | [] => none
      | e :: r1 =>
        if e = 0x75 then
          match r1 with
          | h1 :: h2 :: h3 :: h4 :: r2 =>
            if isHex h1 && isHex h2 && isHex h3 && isHex h4 then
              (scanString r2).map (fun p => (c :: e :: h1 :: h2 :: h3 :: h4 :: p.1, p.2))
            else none
          | _ => none
        else if isSimpleEscape e then
          (scanString r1).map (fun p => (c :: e :: p.1, p.2))
        else none
    else if c < 0x20 then none
    else (scanString r).map (fun p => (c :: p.1, p.2))

/-- The function `getu4`: the number written by a `\uXXXX` at the start of `s`,
`none` where Go returns -1. -/
def getu4 (s : GoString) : Option Nat :=
  match s with
  | b :: u :: h1 :: h2 :: h3 :: h4 :: _ =>
    if b = 0x5C ∧ u = 0x75 ∧ isHex h1 ∧ isHex h2 ∧ isHex h3 ∧ isHex h4 then
      some (((hexVal h1 * 16 + hexVal h2) * 16 + hexVal h3) * 16 + hexVal h4)
    else none
  | _ => none

/-- The case `u` of `unquoteBytes`, on input that starts with the backslash:
the encoding of the rune written by `\uXXXX`, of the rune of a surrogate pair
written by two of them, or of U+FFFD for a surrogate without its pair; and the
input after what was read. -/
def unquoteU (s : GoString) : Option (GoString × GoString) :=
  match getu4 s with
  | none => none
  | some rr =>
    if 0xD800 ≤ rr ∧ rr < 0xE000 then
      match getu4 (s.drop 6) with
      | some rr1 =>
        if rr < 0xDC00 ∧ 0xDC00 ≤ rr1 ∧ rr1 < 0xE000 then
          some (encodeRune ((rr - 0xD800) * 1024 + (rr1 - 0xDC00) + 0x10000), s.drop 12)
        else some (encodeRune RuneError, s.drop 6)
      | none => some (encodeRune RuneError, s.drop 6)
    else some (encodeRune rr, s.drop 6)

/-- The case of a backslash in `unquoteBytes`, on the input after it: the
bytes written and the input after the escape. -/
def unquoteEscape (r : GoString) : Option (GoString × GoString) :=
  match r with
  | [] => none
  | e :: r1 =>
    if e = 0x22 ∨ e = 0x5C ∨ e = 0x2F ∨ e = 0x27 then some ([e], r1)
    else if e = 0x62 then some ([0x08], r1)
    else if e = 0x66 then some ([0x0C], r1)
    else if e = 0x6E then some ([0x0A], r1)
    else if e = 0x72 then some ([0x0D], r1)
    else if e = 0x74 then some ([0x09], r1)
    else if e = 0x75 then unquoteU (0x5C :: e :: r1)
    else none

/-- The body of the second loop of `unquoteBytes` at a byte `c` followed by
`r`: the bytes written and the input left. An escape is replaced, an ASCII
byte is copied, anything else is decoded as a rune and encoded again, which
turns invalid UTF-8 into U+FFFD; a quote or a control character fails. -/
def unquoteStep (c : Nat) (r : GoString) : Option (GoString × GoString) :=
  if c = 0x5C then unquoteEscape r
  else if c = 0x22 ∨ c < 0x20 then none
  else if c < 0x80 then some ([c], r)
  else some (encodeRune (decodeRune (c :: r)).1, r.drop ((decodeRune (c :: r)).2 - 1))

/-- The second loop of `unquoteBytes`, on the raw content of a literal. (The
first loop of `unquoteBytes` returns the content as it is when it has no
escape and is valid UTF-8, which is what this loop computes for it.) The first
argument bounds the number of iterations. -/
def unquoteLoop : Nat → GoString → Option GoString
  | _, [] => some []
  | 0, _ :: _ => none
  | fuel + 1, c :: r =>
    match unquoteStep c r with
    | none => none
    | some (out, rest) => (unquoteLoop fuel rest).map (fun t => out ++ t)

/-- The function `unquoteBytes` on the content between the quotes. -/
def unquote (raw : GoString) : Option GoString :=
  unquoteLoop raw.length raw

/-- The longest run of digits at the start of the input, and what follows. -/
def scanDigits : GoString → GoString × GoString
  | [] => ([], [])
  | c :: r =>
    if isDigit c then ((c :: (scanDigits r).1), (scanDigits r).2) else ([], c :: r)

/-- The fraction of a number (`stateDot`, `stateDot0`): a point needs a digit. -/
def scanFrac (s : GoString) : Option (GoString × GoString) :=
  match s with
  | d :: r =>
    if d = 0x2E then
      match r with
      | f :: r1 =>
        if isDigit f then some (d :: f :: (scanDigits r1).1, (scanDigits r1).2) else none
      | [] => none
    else some ([], s)
  | [] => some ([], s)

/-- The digits of an exponent (`stateESign`, `stateE0`): at least one. -/
def scanExpDigits (s : GoString) : Option (GoString × GoString) :=
  match s with
  | f :: r => if isDigit f then some (f :: (scanDigits r).1, (scanDigits r).2) else none
  | [] => none

/-- The exponent of a number (`stateE`): `e` or `E`, a sign if any, digits. -/
def scanExp (s : GoString) : Option (GoString × GoString) :=
  match s with
  | e :: r =>
    if e = 0x65 ∨ e = 0x45 then
      match r with
      | g :: r1 =>
        if g = 0x2B ∨ g = 0x2D then
          (scanExpDigits r1).map (fun p => (e :: g :: p.1, p.2))
        else (scanExpDigits r).map (fun p => (e :: p.1, p.2))
      | [] => none
    else some ([], s)
  | [] => some ([], s)

/-- The integer part of a number (`state0`, `state1`): a zero alone, or a digit
from 1 to 9 and more digits. -/
def scanInt (s : GoString) : Option (GoString × GoString) :=
  match s with
  | c :: r =>
    if c = 0x30 then some ([c], r)
    else if isDigit c then some (c :: (scanDigits r).1, (scanDigits r).2)
    else none
  | [] => none

/-- The scanner on a number: its text and the input after it. -/
def scanNumber (s : GoString) : Option (GoString × GoString) :=
  let signed : GoString × GoString :=
    match s with
    | c :: r => if c = 0x2D then ([c], r) else ([], s)
    | [] => ([], s)
  match scanInt signed.2 with
  | none => none
  | some (int, s1) =>
    match scanFrac s1 with
    | none => none
    | some (frac, s2) =>
      match scanExp s2 with
      | none => none
      | some (exp, s3) => some (signed.1 ++ int ++ frac ++ exp, s3)

/-- The elements of a non-empty array after `[`, each read by `pv`, up to the
closing bracket. The first argument bounds the number of elements. -/
def parseElems (pv : GoString → Option (JVal × GoString)) :
    Nat → GoString → Option (List JVal × GoString)
  | 0, _ => none
  | k + 1, s =>
    match pv s with
    | none => none
    | some (v, r) =>
      match skipSpace r with
      | [] => none
      | c :: r1 =>
        if c = 0x2C then (parseElems pv k r1).map (fun p => (v :: p.1, p.2))
        else if c = 0x5D then some ([v], r1)
        else none

/-- A key of an object: a string literal, unquoted. -/
def parseKey (s : GoString) : Option (GoString × GoString) :=
  match skipSpace s with
  | [] => none
  | c :: r =>
    if c = 0x22 then
      match scanString r with
      | none => none
      | some (raw, r1) => (unquote raw).map (fun k => (k, r1))
    else none

/-- The members of a non-empty object after `{`, each value read by `pv`, up
to the closing brace. The first argument bounds the number of members. -/
def parseMembers (pv : GoString → Option (JVal × GoString)) :
    Nat → GoString → Option (List (GoString × JVal) × GoString)
  | 0, _ => none
  | k + 1, s =>
    match parseKey s with
    | none => none
    | some (key, r) =>
      match skipSpace r with
      | [] => none
      | c :: r1 =>
        if c = 0x3A then
          match pv r1 with
          | none => none
          | some (v, r2) =>
            match skipSpace r2 with
            | [] => none
            | d :: r3 =>
              if d = 0x2C then
                (parseMembers pv k r3).map (fun p => ((key, v) :: p.1, p.2))
              else if d = 0x7D then some ([(key, v)], r3)
              else none
        else none

/-- The scanner and tokenizer on one value: the value at the start of the
input, after white space, and the input after it. The first argument is the
number of levels of nesting still allowed: the scanner refuses to open an
array or object beyond `maxNestingDepth`. -/
def parseValue : Nat → GoString → Option (JVal × GoString)
  | n, s =>
    match skipSpace s with
    | [] => none
    | c :: r =>
      if c = 0x7B then
        match n with
        | 0 => none
        | n' + 1 =>
          match skipSpace r with
          | [] => none
          | d :: r1 =>
            if d = 0x7D then some (.obj [], r1)
            else (parseMembers (parseValue n') (r.length + 1) r).map
              (fun p => (.obj p.1, p.2))
      else if c = 0x5B then
        match n with
        | 0 => none
        | n' + 1 =>
          match skipSpace r with
          | [] => none
          | d :: r1 =>
            if d = 0x5D then some (.arr [], r1)
            else (parseElems (parseValue n') (r.length + 1) r).map
              (fun p => (.arr p.1, p.2))
      else if c = 0x22 then
        match scanString r with
        | none => none
        | some (raw, r1) => (unquote raw).map (fun t => (.str t, r1))
      else if c = 0x2D ∨ isDigit c then
        (scanNumber (c :: r)).map (fun p => (.num p.1, p.2))
      else if (lit "true").isPrefixOf (c :: r) then some (.bool true, r.drop 3)
      else if (lit "false").isPrefixOf (c :: r) then some (.bool false, r.drop 4)
      else if (lit "null").isPrefixOf (c :: r) then some (.null, r.drop 3)
      else none

/-- The constant `maxNestingDepth` of the scanner. -/
def maxNestingDepth : Nat := 10000

/-- The function `checkValid` together with the tokenizing of the decoder: the
value written by `data`, or `none` when `data` is not one JSON value with
white space around it (a syntax error). -/
def parseJSON (data : GoString) : Option JVal :=
  match parseValue maxNestingDepth data with
  | none => none
  | some (v, r) => if skipSpace r = [] then some v else none

/-- The decoder storing a JSON value into a Go string that holds `cur`: a
string is stored, `null` changes nothing, anything else is a type error that
is saved while the value is left as it is. The second component says whether
an error was saved. -/
def storeString (cur : GoString) : JVal → GoString × Bool
  | .str s => (s, false)
  | .null => (cur, false)
  | _ => (cur, true)

/-- The loop of the decoder over the members of an object stored into a map:
each value is decoded into a fresh (empty) string and assigned to its key,
also when decoding it saved a type error. -/
def storeMembers : Entries → List (GoString × JVal) → Entries × Bool
  | m, [] => (m, false)
  | m, (k, v) :: rest =>
    let sv := storeString [] v
    let res := storeMembers (m.set k sv.1) rest
    (res.1, sv.2 || res.2)

/-- The decoder storing a JSON value into a `map[string]string` that holds
`cur`: an object allocates the map when it is nil and adds its members, `null`
sets the map to nil, anything else is a type error and leaves the map. -/
def storeMap (cur : GoMap) : JVal → GoMap × Bool
  | .obj ms =>
    let res := storeMembers (cur.getD []) ms
    (some res.1, res.2)
  | .null => (none, false)
  | _ => (cur, true)

/-- `json.Unmarshal(data, &m)` for `m` of type `map[string]string`: the value
of `m` afterwards and whether an error is returned. A syntax error leaves `m`
untouched. -/
def jsonUnmarshalMap (data : GoString) (m : GoMap) : GoMap × Bool :=
  match parseJSON data with
  | none => (m, true)
  | some v => storeMap m v

/-- The loop of the decoder over the elements of an array stored into a
`[]string`: an element within the old length is decoded into the old element,
one beyond it into an empty string. -/
def storeElems : List GoString → List JVal → List GoString × Bool
  | _, [] => ([], false)
  | old, x :: xs =>
    let sv := storeString (old.headD []) x
    let res := storeElems old.tail xs
    (sv.1 :: res.1, sv.2 || res.2)

/-- The decoder storing a JSON value into a `[]string` that holds `cur`: an
array gives a non-nil slice of its elements, `null` the nil slice, anything
else is a type error and leaves the slice. -/
def storeSlice (cur : Option (List GoString)) : JVal → Option (List GoString) × Bool
  | .arr xs =>
    let res := storeElems (cur.getD []) xs
    (some res.1, res.2)
  | .null => (none, false)
  | _ => (cur, true)

/-! ## `logstash.go`: the message, with `json.Marshal` and `json.Unmarshal` on it -/

/-- `LogstashMessage` (lines 139-148). -/
structure LogstashMessage where
  Message : GoString
  Name : GoString
  ID : GoString
  Image : GoString
  Hostname : GoString
  Args : Option (List GoString)
  Options : GoMap
  InstanceId : GoString
deriving DecidableEq

/-- The fields of `LogstashMessage` with their struct tags, in the order of
declaration, which is the order in which they are encoded. -/
def LogstashMessage.fields (msg : LogstashMessage) : List Field :=
  [ ⟨lit "message", false, .str msg.Message⟩,
    ⟨lit "docker.name", false, .str msg.Name⟩,
    ⟨lit "docker.id", false, .str msg.ID⟩,
    ⟨lit "docker.image", false, .str msg.Image⟩,
    ⟨lit "docker.hostname", false, .str msg.Hostname⟩,
    ⟨lit "docker.args", true, .strSlice msg.Args⟩,
    ⟨lit "options", true, .strMap msg.Options⟩,
    ⟨lit "instance-id", true, .str msg.InstanceId⟩ ]

deriving instance DecidableEq for Except

/-- `json.Marshal` applied to a `LogstashMessage`: the bytes, or an error. For
strings, slices of strings and maps of strings the encoder has no failing case. -/
def jsonMarshal (msg : LogstashMessage) : Except GoString GoString :=
  .ok (encodeFields 0x7B msg.fields)

/-- The names given by the tags of `LogstashMessage`, in the order of the
fields. -/
def fieldNames : List GoString :=
  [lit "message", lit "docker.name", lit "docker.id", lit "docker.image",
    lit "docker.hostname", lit "docker.args", lit "options", lit "instance-id"]

/-- The folding of one ASCII byte: a lower-case letter becomes upper-case. -/
def foldByte (c : Nat) : Nat :=
  if 0x61 ≤ c ∧ c ≤ 0x7A then c - 0x20 else c

/-- The function `foldName` of the decoder, as far as it can make a key equal
to a name of ASCII characters: a lower-case letter becomes upper-case, the long
s (U+017F) becomes S and the Kelvin sign (U+212A) becomes K, the only runes
outside ASCII that fold to an ASCII letter; every other byte is kept. -/
def foldName : GoString → GoString
  | [] => []
  | [c] => [foldByte c]
  | [c, d] => if c = 0xC5 ∧ d = 0xBF then [0x53] else foldByte c :: foldName [d]
  | c :: d :: e :: r =>
    if c = 0xC5 ∧ d = 0xBF then 0x53 :: foldName (e :: r)
    else if c = 0xE2 ∧ d = 0x84 ∧ e = 0xAA then 0x4B :: foldName r
    else foldByte c :: foldName (d :: e :: r)

/-- The field a key of the object is stored into: the one whose name is the
key, failing that the one whose name equals the key under `foldName`. -/
def findField (key : GoString) : Option Nat :=
  if fieldNames.indexOf key < fieldNames.length then some (fieldNames.indexOf key)
  else if (fieldNames.map foldName).indexOf (foldName key) < fieldNames.length then
    some ((fieldNames.map foldName).indexOf (foldName key))
  else none

/-- The decoder storing a JSON value into the field of the given index. -/
def LogstashMessage.store (msg : LogstashMessage) (i : Nat) (v : JVal) :
    LogstashMessage × Bool :=
  match i with
  | 0 => ({ msg with Message := (storeString msg.Message v).1 }, (storeString msg.Message v).2)
  | 1 => ({ msg with Name := (storeString msg.Name v).1 }, (storeString msg.Name v).2)
  | 2 => ({ msg with ID := (storeString msg.ID v).1 }, (storeString msg.ID v).2)
  | 3 => ({ msg with Image := (storeString msg.Image v).1 }, (storeString msg.Image v).2)
  | 4 => ({ msg with Hostname := (storeString msg.Hostname v).1 },
      (storeString msg.Hostname v).2)
  | 5 => ({ msg with Args := (storeSlice msg.Args v).1 }, (storeSlice msg.Args v).2)
  | 6 => ({ msg with Options := (storeMap msg.Options v).1 }, (storeMap msg.Options v).2)
  | 7 => ({ msg with InstanceId := (storeString msg.InstanceId v).1 },
      (storeString msg.InstanceId v).2)
  | _ => (msg, false)

/-- The loop of the decoder over the members of an object stored into a
`LogstashMessage`: a member whose key names no field is skipped. -/
def storeStruct : LogstashMessage → List (GoString × JVal) → LogstashMessage × Bool
  | msg, [] => (msg, false)
  | msg, (k, v) :: rest =>
    match findField k with
    | none => storeStruct msg rest
    | some i =>
      ((storeStruct (msg.store i v).1 rest).1,
        (msg.store i v).2 || (storeStruct (msg.store i v).1 rest).2)

/-- `json.Unmarshal(data, &msg)` for `msg` of type `LogstashMessage`: the value
of `msg` afterwards and whether an error is returned. -/
def jsonUnmarshalMessage (data : GoString) (msg : LogstashMessage) :
    LogstashMessage × Bool :=
  match parseJSON data with
  | none => (msg, true)
  | some (.obj ms) => storeStruct msg ms
  | some .null => (msg, false)
  | some _ => (msg, true)

/-- The zero value of `LogstashMessage`. -/
def LogstashMessage.zero : LogstashMessage :=
  { Message := lit "", Name := lit "", ID := lit "", Image := lit "", Hostname := lit "",
    Args := none, Options := none, InstanceId := lit "" }

/-! ## The collaborators: `router`, `os`, `net`, `net/http` -/

/-- The part of `docker.Config` the adapter reads. -/
structure Config where
  Image : GoString
  Hostname : GoString
  Env : Option (List GoString)
deriving DecidableEq

/-- The part of `docker.Container` the adapter reads. -/
structure Container where
  Name : GoString
  ID : GoString
  Args : Option (List GoString)
  Config : Config
deriving DecidableEq

/-- The part of `router.Message` the adapter reads: one log record. -/
structure Message where
  Data : GoString
  Container : Container
deriving DecidableEq

/-- The part of `router.Route` the adapter reads. -/
structure Route where
  Adapter : GoString
  Address : GoString
  Options : GoMap
deriving DecidableEq

/-- Go `strings.Split` with a separator of one byte. -/
def Split (sep : Nat) : GoString → List GoString
  | [] => [[]]
  | c :: r =>
    if c = sep then [] :: Split sep r
    else
      match Split sep r with
      | part :: parts => (c :: part) :: parts
      | [] => [[c]]

/-- The method `AdapterTransport` of `router.Route`: the second part of the
adapter name split at `+`, the default when the name has no `+`. -/
def Route.AdapterTransport (r : Route) (dfault : GoString) : GoString :=
  match Split 0x2B r.Adapter with
  | _ :: transport :: _ => transport
  | _ => dfault

/-- The environment of the process: the value of a variable, if it is set. -/
abbrev Environ := GoString → Option GoString

/-- Go `os.Getenv`: the value of the variable, empty when it is not set. -/
def Getenv (environ : Environ) (name : GoString) : GoString :=
  (environ name).getD (lit "")

/-- A connection (`net.Conn`), known by a number. -/
abbrev Conn := Nat

/-- What the outside answers when a connection is made: whether
`router.AdapterTransports.Lookup` finds the transport, and what its `Dial`
returns, a connection or an error. -/
structure Connect where
  found : Bool
  dial : Conn ⊕ GoString
deriving DecidableEq

/-- What the outside answers while one record is processed: whether the write
of line 119 succeeds, what a reconnection is answered, and whether the write
of line 130 succeeds. An answer is read only when the code makes the call. -/
structure Attempt where
  write1 : Bool
  reconnect : Connect
  write2 : Bool
deriving DecidableEq

/-- A call made by the adapter, with its arguments and its outcome. -/
inductive Event where
  | lookup (name : GoString) (found : Bool)
  | dial (address : GoString) (options : GoMap) (result : Conn ⊕ GoString)
  | write (conn : Conn) (data : GoString) (ok : Bool)
  | println
  | fatal
deriving DecidableEq

/-! ## `logstash.go`: option resolution -/

/-- The loop of `GetLogspoutOptionsString` (lines 54-58): the first entry that
begins with `LOGSPOUT_OPTIONS=` decides the result. -/
def GetLogspoutOptionsString.loop : List GoString → GoString
  | [] => lit ""
  | value :: rest =>
    if HasPrefix value (lit "LOGSPOUT_OPTIONS=") then
      TrimPrefix value (lit "LOGSPOUT_OPTIONS=")
    else GetLogspoutOptionsString.loop rest

/-- `GetLogspoutOptionsString` (lines 52-61). -/
def GetLogspoutOptionsString (env : Option (List GoString)) : GoString :=
  match env with
  | some values => GetLogspoutOptionsString.loop values
  | none => lit ""

/-- The loop of lines 97-101 of `Stream`: every key of `options` that
`container_options` lacks is copied into it. The list order stands for the
iteration order of `range`, which Go leaves unspecified. -/
def mergeLoop : Entries → Entries → Entries
  | [], container_options => container_options
  | (k, v) :: rest, container_options =>
    mergeLoop rest
      (if (container_options.get k).isSome then container_options
       else container_options.set k v)

/-- Lines 94-102 of `Stream`: the value of `container_options` after the
preference step. -/
def mergeOptions (options container_options : GoMap) : GoMap :=
  match container_options with
  | none => options
  | some c =>
    match options with
    | some o => some (mergeLoop o c)
    | none => some c

/-- `UnmarshalOptions` (lines 63-73): the error of `json.Unmarshal` is dropped. -/
def UnmarshalOptions (opt_string : GoString) : GoMap :=
  let options : GoMap := none
  if opt_string ≠ lit "" then
    (jsonUnmarshalMap opt_string options).1
  else none

/-- `getopt` (lines 26-32). -/
def getopt (environ : Environ) (name dfault : GoString) : GoString :=
  let value := Getenv environ name
  if value = lit "" then dfault else value

/-! ## `logstash.go`: the adapter -/

/-- `LogstashAdapter` (lines 21-24). -/
structure LogstashAdapter where
  conn : Conn
  route : Route
deriving DecidableEq

/-- `NewLogstashAdapter` (lines 35-50): the adapter or the error, and the calls
made. -/
def NewLogstashAdapter (route : Route) (io : Connect) :
    (LogstashAdapter ⊕ GoString) × List Event :=
  let name := route.AdapterTransport (lit "udp")
  if !io.found then
    (.inr (lit "unable to find adapter: " ++ route.Adapter), [.lookup name false])
  else
    match io.dial with
    | .inr err =>
      (.inr err, [.lookup name true, .dial route.Address route.Options (.inr err)])
    | .inl conn =>
      (.inl { route := route, conn := conn },
        [.lookup name true, .dial route.Address route.Options (.inl conn)])

/-- Lines 104-113 of `Stream`: the message built for a record. -/
def buildMessage (m : Message) (instance_id : GoString) (container_options : GoMap) :
    LogstashMessage :=
  { Message := m.Data
    Name := m.Container.Name
    ID := m.Container.ID
    Image := m.Container.Config.Image
    Hostname := m.Container.Config.Hostname
    Args := m.Container.Args
    InstanceId := instance_id
    Options := container_options }

/-- The state in which `Stream` ends: the adapter, the calls made in order,
whether `log.Fatal` ended the process, and the records never received. -/
structure Run where
  adapter : LogstashAdapter
  trace : List Event
  fatal : Bool
  unread : List (Message × Attempt)
deriving DecidableEq

/-- A run with more calls before it. -/
def Run.after (events : List Event) (run : Run) : Run :=
  { run with trace := events ++ run.trace }

/-- The loop of `Stream` (lines 90-135) over the records the channel delivers
until it is closed, each with the answers of the outside while it is
processed. -/
def streamLoop (options : GoMap) (instance_id : GoString) :
    LogstashAdapter → List (Message × Attempt) → Run
  | a, [] => { adapter := a, trace := [], fatal := false, unread := [] }
  | a, (m, io) :: rest =>
    let container_options :=
      mergeOptions options (UnmarshalOptions (GetLogspoutOptionsString m.Container.Config.Env))
    let msg := buildMessage m instance_id container_options
    match jsonMarshal msg with
    | .error _ => (streamLoop options instance_id a rest).after [.println]
    | .ok js =>
      if io.write1 then
        (streamLoop options instance_id a rest).after [.write a.conn js true]
      else
        let name := a.route.AdapterTransport (lit "udp")
        if !io.reconnect.found then
          { adapter := a, fatal := true, unread := rest,
            trace := [.write a.conn js false, .lookup name false, .fatal] }
        else
          match io.reconnect.dial with
          | .inr err =>
            { adapter := a, fatal := true, unread := rest,
              trace := [.write a.conn js false, .lookup name true,
                .dial a.route.Address a.route.Options (.inr err), .fatal] }
          | .inl conn =>
            let a' : LogstashAdapter := { a with conn := conn }
            if io.write2 then
              (streamLoop options instance_id a' rest).after
                [.write a.conn js false, .lookup name true,
                  .dial a.route.Address a.route.Options (.inl conn),
                  .write a'.conn js true]
            else
              { adapter := a', fatal := true, unread := rest,
                trace := [.write a.conn js false, .lookup name true,
                  .dial a.route.Address a.route.Options (.inl conn),
                  .write a'.conn js false, .fatal] }

/-- `Stream` (lines 76-136). `http` is the outcome of the request for the
instance identity: `none` when `http.Get` fails, `some none` when reading the
body fails, the body otherwise. -/
def LogstashAdapter.Stream (a : LogstashAdapter) (environ : Environ)
    (http : Option (Option GoString)) (logstream : List (Message × Attempt)) : Run :=
  let options := UnmarshalOptions (getopt environ (lit "OPTIONS") (lit ""))
  let instance_id :=
    match http with
    | some (some value) => value
    | _ => lit ""
  streamLoop options instance_id a logstream

/-! ## Properties of a run and of the bytes, used to state the theorems -/

/-- A member of a JSON object: the name between quotes, a colon, the value. -/
def jsonMember (name value : GoString) : GoString :=
  [0x22] ++ name ++ [0x22, 0x3A] ++ value

/-- The bytes `Stream` serialises for a record, given the default options and
the instance identity (lines 91-114). -/
def envelope (options : GoMap) (instance_id : GoString) (m : Message) : GoString :=
  encodeFields 0x7B (buildMessage m instance_id
    (mergeOptions options
      (UnmarshalOptions (GetLogspoutOptionsString m.Container.Config.Env)))).fields

/-- The instance identity `Stream` keeps (lines 80-88). -/
def instanceId (http : Option (Option GoString)) : GoString :=
  match http with
  | some (some value) => value
  | _ => lit ""

/-- The answers with which a record is delivered: the first write succeeds, or
the transport is found, the dial succeeds and the second write succeeds. -/
def Attempt.recovers (io : Attempt) : Bool :=
  io.write1 || (io.reconnect.found && io.reconnect.dial.isLeft && io.write2)

/-- The data of the writes that succeeded, in order. -/
def successfulWrites : List Event → List GoString
  | [] => []
  | .write _ data ok :: rest =>
    if ok then data :: successfulWrites rest else successfulWrites rest
  | _ :: rest => successfulWrites rest

/-- The calls right after a failed write of `data` are a lookup that finds the
transport, a dial that succeeds and a successful write of `data` to the
connection dialed. -/
def retryAt (data : GoString) : List Event → Bool
  | .lookup _ true :: .dial _ _ (.inl conn) :: .write conn' data' true :: _ =>
    conn' == conn && data' == data
  | _ => false

/-- Every failed write of the trace is followed at once by its retry. -/
def retriesFollow : List Event → Bool
  | [] => true
  | .write _ data ok :: rest => (ok || retryAt data rest) && retriesFollow rest
  | _ :: rest => retriesFollow rest

/-- The connection the adapter stores after the calls: the one dialed last, the
one it started with when none was dialed. -/
def storedConn : Conn → List Event → Conn
  | c, [] => c
  | c, .dial _ _ result :: rest =>
    match result with
    | .inl conn => storedConn conn rest
    | .inr _ => storedConn c rest
  | c, _ :: rest => storedConn c rest

/-- Every write goes to the connection stored at the time it is made. -/
def writesToStored : Conn → List Event → Bool
  | _, [] => true
  | c, .write conn _ _ :: rest => conn == c && writesToStored c rest
  | c, .dial _ _ result :: rest =>
    match result with
    | .inl conn => writesToStored conn rest
    | .inr _ => writesToStored c rest
  | c, _ :: rest => writesToStored c rest

/-- What `appendString` writes for one rune of a string that is valid UTF-8. -/
def escRune (r : Nat) : GoString :=
  if r < 0x80 then (if htmlSafe r then [r] else escapeByte r)
  else if r = 0x2028 ∨ r = 0x2029 then lit "\\u202" ++ [hexDigit (r % 16)]
  else encodeRune r

/-- The reader `pv` reads the text back as the value, whatever follows it. -/
def ReadsBack (pv : GoString → Option (JVal × GoString)) (text : GoString) (v : JVal) : Prop :=
  ∀ t, pv (text ++ t) = some (v, t)

/-- A value that is a string is valid UTF-8. -/
def JVal.StrValid (v : JVal) : Prop :=
  ∀ x, v = .str x → ValidUTF8 x

/-- The members `json.Marshal` writes for a message: the name, the text of the
value and the value the scanner reads that text back as. -/
def messageItems (msg : LogstashMessage) : List (GoString × GoString × JVal) :=
  [ (lit "message", appendString msg.Message, JVal.str msg.Message),
    (lit "docker.name", appendString msg.Name, JVal.str msg.Name),
    (lit "docker.id", appendString msg.ID, JVal.str msg.ID),
    (lit "docker.image", appendString msg.Image, JVal.str msg.Image),
    (lit "docker.hostname", appendString msg.Hostname, JVal.str msg.Hostname) ]
  ++ (match msg.Args with
      | some (x :: xs) =>
        [(lit "docker.args", encodeValue (.strSlice (some (x :: xs))),
          JVal.arr ((x :: xs).map JVal.str))]
      | _ => [])
  ++ (match msg.Options with
      | some (e :: es) =>
        [(lit "options", encodeValue (.strMap (some (e :: es))),
          JVal.obj ((sortEntries (e :: es)).map (fun a => (a.1, JVal.str a.2))))]
      | _ => [])
  ++ (match msg.InstanceId with
      | [] => []
      | c :: cs => [(lit "instance-id", appendString (c :: cs), JVal.str (c :: cs))])

/-- The strings of a record are valid UTF-8. -/
def Message.ValidUTF8 (m : Message) : Prop :=
  Logstash.ValidUTF8 m.Data ∧ Logstash.ValidUTF8 m.Container.Name ∧
  Logstash.ValidUTF8 m.Container.ID ∧ Logstash.ValidUTF8 m.Container.Config.Image ∧
  Logstash.ValidUTF8 m.Container.Config.Hostname ∧
  ∀ a ∈ m.Container.Args.getD [], Logstash.ValidUTF8 a

/-- The strings of a message are valid UTF-8 and its map has one entry for a
key. -/
def LogstashMessage.Valid (msg : LogstashMessage) : Prop :=
  ValidUTF8 msg.Message ∧ ValidUTF8 msg.Name ∧ ValidUTF8 msg.ID ∧ ValidUTF8 msg.Image ∧
  ValidUTF8 msg.Hostname ∧ (∀ a ∈ msg.Args.getD [], ValidUTF8 a) ∧
  (∀ es, msg.Options = some es → es.WellFormed) ∧ ValidUTF8 msg.InstanceId

/-! ## Concrete inputs, used where a theorem is applied to an example -/

/-- A route to a TCP endpoint. -/
def sampleRoute : Route :=
  { Adapter := lit "logstash+tcp", Address := lit "logs:5000", Options := none }

/-- An adapter on connection 1. -/
def sampleAdapter : LogstashAdapter :=
  { conn := 1, route := sampleRoute }

/-- A record of the container web1 with no arguments and no environment. -/
def sampleRecord (data : String) : Message :=
  { Data := lit data
    Container :=
      { Name := lit "web1", ID := lit "abc123", Args := none
        Config := { Image := lit "nginx", Hostname := lit "h1", Env := some [] } } }

/-- The write succeeds at once. -/
def writeOk : Attempt :=
  { write1 := true, reconnect := { found := false, dial := .inr (lit "") }, write2 := false }

/-- The write fails, the reconnection yields connection 2, the retry succeeds. -/
def writeRetried : Attempt :=
  { write1 := false, reconnect := { found := true, dial := .inl 2 }, write2 := true }

/-- The write fails and the dial of the reconnection fails. -/
def dialFails : Attempt :=
  { write1 := false, reconnect := { found := true, dial := .inr (lit "refused") },
    write2 := true }

/-- An environment in which no variable is set. -/
def emptyEnviron : Environ := fun _ => none

/-- A record with a byte that is not valid UTF-8 as its text. -/
def invalidRecord : Message :=
  { Data := [0xFF]
    Container :=
      { Name := lit "web1", ID := lit "abc123", Args := none
        Config := { Image := lit "nginx", Hostname := lit "h1", Env := none } } }

/-- A record with an argument list that is empty and not nil. -/
def emptyArgsRecord : Message :=
  { Data := lit "hello"
    Container :=
      { Name := lit "web1", ID := lit "abc123", Args := some []
        Config := { Image := lit "nginx", Hostname := lit "h1", Env := none } } }

/-- A record with two arguments and options of its own. -/
def fullRecord : Message :=
  { Data := lit "caf\u00e9 <ok>"
    Container :=
      { Name := lit "web1", ID := lit "abc123", Args := some [lit "-p", lit "80"]
        Config :=
          { Image := lit "nginx", Hostname := lit "h1"
            Env := some [lit "LOGSPOUT_OPTIONS=\x7b\"b\":\"9\",\"c\":\"3\"\x7d"] } } }

/-- An environment in which OPTIONS holds an object of two keys. -/
def optionsEnviron : Environ :=
  fun name => if name = lit "OPTIONS" then some (lit "\x7b\"a\":\"1\",\"b\":\"2\"\x7d") else none

/-! ## Lemmas -/

/-! ### The merge and the lookup of options -/

theorem Entries.get_set (m : Entries) (k v k' : GoString) :
    (m.set k v).get k' = if k = k' then some v else m.get k' := by
  induction m with
  | nil => simp [Entries.set, Entries.get]
  | cons e rest ih =>
    obtain ⟨a, b⟩ := e
    by_cases h : a = k
    · subst h
      by_cases h' : a = k' <;> simp [Entries.set, Entries.get, h']
    · by_cases h' : a = k'
      · subst h'
        simp [Entries.set, Entries.get, h, Ne.symm h]
      · simp [Entries.set, Entries.get, h, h', ih]

theorem mergeLoop_get (o c : Entries) (k : GoString) :
    (mergeLoop o c).get k = (c.get k).orElse (fun _ => o.get k) := by
  induction o generalizing c with
  | nil => cases h : c.get k <;> simp [mergeLoop, Entries.get, h]
  | cons e rest ih =>
    obtain ⟨a, b⟩ := e
    rw [mergeLoop, ih]
    by_cases hk : a = k
    · subst hk
      cases h : c.get a <;> simp [Entries.get, Entries.get_set, h]
    · cases h : c.get a <;> cases h' : c.get k <;>
        simp [Entries.get, Entries.get_set, h, h', hk]

theorem unmarshalOptions_object (s : GoString) (ms : List (GoString × JVal))
    (h : parseJSON s = some (.obj ms)) :
    UnmarshalOptions s = some (storeMembers [] ms).1 := by
  have hs : s ≠ lit "" := by
    intro e
    rw [e] at h
    have : (parseJSON (lit "")).isSome = false := by decide
    rw [h] at this
    cases this
  simp [UnmarshalOptions, jsonUnmarshalMap, hs, h, storeMap]

theorem mergeOptions_get (D : GoMap) (R : Entries) (k : GoString) :
    (mergeOptions D (some R)).get k = (R.get k).orElse (fun _ => D.get k) := by
  cases D with
  | none => cases h : R.get k <;> simp [mergeOptions, GoMap.get, h]
  | some o => simp [mergeOptions, GoMap.get, mergeLoop_get]

theorem hasPrefix_iff (s pre : GoString) : HasPrefix s pre = true ↔ pre <+: s := by
  simp [HasPrefix]

theorem trimPrefix_append (pre rest : GoString) : TrimPrefix (pre ++ rest) pre = rest := by
  simp [TrimPrefix, HasPrefix]

theorem loop_no_match (values : List GoString)
    (h : ∀ e ∈ values, ¬ (lit "LOGSPOUT_OPTIONS=" <+: e)) :
    GetLogspoutOptionsString.loop values = lit "" := by
  induction values with
  | nil => rfl
  | cons e rest ih =>
    have he : HasPrefix e (lit "LOGSPOUT_OPTIONS=") = false := by
      have := h e (by simp)
      rw [← hasPrefix_iff] at this
      simpa using this
    rw [GetLogspoutOptionsString.loop, he]
    simpa using ih (fun x hx => h x (by simp [hx]))

theorem loop_first_match (before after : List GoString) (rest : GoString)
    (h : ∀ e ∈ before, ¬ (lit "LOGSPOUT_OPTIONS=" <+: e)) :
    GetLogspoutOptionsString.loop (before ++ (lit "LOGSPOUT_OPTIONS=" ++ rest) :: after)
      = rest := by
  induction before with
  | nil =>
    have hp : HasPrefix (lit "LOGSPOUT_OPTIONS=" ++ rest) (lit "LOGSPOUT_OPTIONS=") = true := by
      rw [hasPrefix_iff]; exact List.prefix_append _ _
    simp only [List.nil_append, GetLogspoutOptionsString.loop, hp, if_true]
    exact trimPrefix_append _ _
  | cons e more ih =>
    have he : HasPrefix e (lit "LOGSPOUT_OPTIONS=") = false := by
      have := h e (by simp)
      rw [← hasPrefix_iff] at this
      simpa using this
    simp only [List.cons_append, GetLogspoutOptionsString.loop, he]
    simpa using ih (fun x hx => h x (by simp [hx]))

theorem unmarshalOptions_empty : UnmarshalOptions (lit "") = none := by
  simp [UnmarshalOptions]

theorem unmarshalOptions_not_object (s : GoString)
    (h : ∀ ms, parseJSON s ≠ some (.obj ms)) : UnmarshalOptions s = none := by
  unfold UnmarshalOptions jsonUnmarshalMap
  split
  · cases hp : parseJSON s with
    | none => rfl
    | some v =>
      cases v with
      | obj ms => exact absurd hp (h ms)
      | _ => rfl
  · rfl

/-! ### The route and the loop of `Stream` -/

theorem split_no_sep (sep : Nat) (a : GoString) (h : sep ∉ a) : Split sep a = [a] := by
  induction a with
  | nil => rfl
  | cons c r ih =>
    have hc : c ≠ sep := fun e => h (by simp [e])
    have hr : sep ∉ r := fun e => h (by simp [e])
    simp [Split, hc, ih hr]

theorem split_first_sep (sep : Nat) (a k : GoString) (h : sep ∉ a) :
    Split sep (a ++ sep :: k) = a :: Split sep k := by
  induction a with
  | nil => simp [Split]
  | cons c r ih =>
    have hc : c ≠ sep := fun e => h (by simp [e])
    have hr : sep ∉ r := fun e => h (by simp [e])
    simp [Split, hc, ih hr]

theorem streamLoop_recovers (options : GoMap) (instance_id : GoString)
    (logstream : List (Message × Attempt)) (a : LogstashAdapter)
    (h : ∀ p ∈ logstream, p.2.recovers = true) :
    (streamLoop options instance_id a logstream).fatal = false ∧
    (streamLoop options instance_id a logstream).unread = [] ∧
    successfulWrites (streamLoop options instance_id a logstream).trace
      = logstream.map (fun p => envelope options instance_id p.1) ∧
    retriesFollow (streamLoop options instance_id a logstream).trace = true ∧
    writesToStored a.conn (streamLoop options instance_id a logstream).trace = true ∧
    (streamLoop options instance_id a logstream).adapter.conn
      = storedConn a.conn (streamLoop options instance_id a logstream).trace := by
  induction logstream generalizing a with
  | nil => simp [streamLoop, successfulWrites, retriesFollow, writesToStored, storedConn]
  | cons p rest ih =>
    obtain ⟨m, io⟩ := p
    have hio : io.recovers = true := h (m, io) (by simp)
    have hrest : ∀ q ∈ rest, q.2.recovers = true := fun q hq => h q (by simp [hq])
    cases h1 : io.write1 with
    | true =>
      obtain ⟨i1, i2, i3, i4, i5, i6⟩ := ih a hrest
      simp [streamLoop, jsonMarshal, h1, Run.after, successfulWrites, retriesFollow, retryAt,
        writesToStored, storedConn, i1, i2, i3, i4, i5, i6, envelope]
    | false =>
      simp only [Attempt.recovers, h1, Bool.false_or, Bool.and_eq_true] at hio
      obtain ⟨⟨hf, hd⟩, h2⟩ := hio
      cases hdial : io.reconnect.dial with
      | inr err => simp [hdial] at hd
      | inl conn =>
        obtain ⟨i1, i2, i3, i4, i5, i6⟩ := ih { a with conn := conn } hrest
        simp only at i5 i6
        simp [streamLoop, jsonMarshal, h1, hf, hdial, h2, Run.after, successfulWrites,
          retriesFollow, retryAt, writesToStored, storedConn, i1, i2, i3, i4, i5, i6, envelope]

theorem streamLoop_fatal (options : GoMap) (instance_id : GoString)
    (before : List (Message × Attempt)) (m : Message) (io : Attempt)
    (after : List (Message × Attempt)) (a : LogstashAdapter)
    (hb : ∀ p ∈ before, p.2.recovers = true) (hf : io.recovers = false) :
    (streamLoop options instance_id a (before ++ (m, io) :: after)).fatal = true ∧
    (streamLoop options instance_id a (before ++ (m, io) :: after)).unread = after ∧
    (streamLoop options instance_id a (before ++ (m, io) :: after)).trace
      = (streamLoop options instance_id a (before ++ [(m, io)])).trace ∧
    (streamLoop options instance_id a (before ++ (m, io) :: after)).trace.getLast?
      = some .fatal ∧
    successfulWrites (streamLoop options instance_id a (before ++ (m, io) :: after)).trace
      = before.map (fun p => envelope options instance_id p.1) := by
  induction before generalizing a with
  | nil =>
    simp only [Attempt.recovers, Bool.or_eq_false_iff, Bool.and_eq_false_iff] at hf
    obtain ⟨h1, hf⟩ := hf
    cases hfound : io.reconnect.found with
    | false => simp [streamLoop, jsonMarshal, h1, hfound, successfulWrites]
    | true =>
      cases hdial : io.reconnect.dial with
      | inr err => simp [streamLoop, jsonMarshal, h1, hfound, hdial, successfulWrites]
      | inl conn =>
        have h2 : io.write2 = false := by
          rcases hf with (hf | hf) | hf
          · simp [hfound] at hf
          · simp [hdial] at hf
          · exact hf
        simp [streamLoop, jsonMarshal, h1, hfound, hdial, h2, successfulWrites]
  | cons p rest ih =>
    obtain ⟨m', io'⟩ := p
    have hio : io'.recovers = true := hb (m', io') (by simp)
    have hrest : ∀ q ∈ rest, q.2.recovers = true := fun q hq => hb q (by simp [hq])
    cases h1 : io'.write1 with
    | true =>
      obtain ⟨i1, i2, i3, i4, i5⟩ := ih a hrest
      rw [i3] at i4 i5
      simp [streamLoop, jsonMarshal, h1, Run.after, successfulWrites, i1, i2, i3, i4, i5,
        envelope, List.getLast?_cons]
    | false =>
      simp only [Attempt.recovers, h1, Bool.false_or, Bool.and_eq_true] at hio
      obtain ⟨⟨hfound, hd⟩, h2⟩ := hio
      cases hdial : io'.reconnect.dial with
      | inr err => simp [hdial] at hd
      | inl conn =>
        obtain ⟨i1, i2, i3, i4, i5⟩ := ih { a with conn := conn } hrest
        rw [i3] at i4 i5
        simp [streamLoop, jsonMarshal, h1, hfound, hdial, h2, Run.after, successfulWrites,
          i1, i2, i3, i4, i5, envelope, List.getLast?_cons]

/-! ### UTF-8 -/

theorem decodeRune_encodeRune (r : Nat) (t : GoString) (h : IsScalar r) :
    decodeRune (encodeRune r ++ t) = (r, (encodeRune r).length) := by
  unfold IsScalar at h
  unfold encodeRune
  split_ifs with h1 h2 h3 h4
  · simp [decodeRune, h1]
  · have e1 : ¬ (0xC0 + r / 64 < 0x80) := by omega
    have e2 : ¬ (0xC0 + r / 64 < 0xC2 ∨ 0xF4 < 0xC0 + r / 64) := by omega
    have e3 : 0xC0 + r / 64 < 0xE0 := by omega
    have e4 : accLo (0xC0 + r / 64) = 0x80 := by unfold accLo; split_ifs <;> omega
    have e5 : accHi (0xC0 + r / 64) = 0xBF := by unfold accHi; split_ifs <;> omega
    have e6 : ¬ (0x80 + r % 64 < 0x80 ∨ 0xBF < 0x80 + r % 64) := by omega
    simp only [List.cons_append, List.nil_append, decodeRune, decode2, e1, e2, e3, e4, e5, e6,
      if_true, if_false, List.length_cons, List.length_nil, Prod.mk.injEq]
    refine ⟨?_, trivial⟩
    omega
  · omega
  · have e1 : ¬ (0xE0 + r / 4096 < 0x80) := by omega
    have e2 : ¬ (0xE0 + r / 4096 < 0xC2 ∨ 0xF4 < 0xE0 + r / 4096) := by omega
    have e3 : ¬ (0xE0 + r / 4096 < 0xE0) := by omega
    have e3' : 0xE0 + r / 4096 < 0xF0 := by omega
    have e6 : ¬ (0x80 + r / 64 % 64 < accLo (0xE0 + r / 4096) ∨
        accHi (0xE0 + r / 4096) < 0x80 + r / 64 % 64) := by
      unfold accLo accHi; split_ifs <;> omega
    have e7 : ¬ (0x80 + r % 64 < 0x80 ∨ 0xBF < 0x80 + r % 64) := by omega
    simp only [List.cons_append, List.nil_append, decodeRune, decode3, e1, e2, e3, e3', e6, e7,
      if_true, if_false, List.length_cons, List.length_nil, Prod.mk.injEq]
    refine ⟨?_, trivial⟩
    omega
  · have e1 : ¬ (0xF0 + r / 262144 < 0x80) := by omega
    have e2 : ¬ (0xF0 + r / 262144 < 0xC2 ∨ 0xF4 < 0xF0 + r / 262144) := by omega
    have e3 : ¬ (0xF0 + r / 262144 < 0xE0) := by omega
    have e3' : ¬ (0xF0 + r / 262144 < 0xF0) := by omega
    have e6 : ¬ (0x80 + r / 4096 % 64 < accLo (0xF0 + r / 262144) ∨
        accHi (0xF0 + r / 262144) < 0x80 + r / 4096 % 64) := by
      unfold accLo accHi; split_ifs <;> omega
    have e7 : ¬ (0x80 + r / 64 % 64 < 0x80 ∨ 0xBF < 0x80 + r / 64 % 64) := by omega
    have e8 : ¬ (0x80 + r % 64 < 0x80 ∨ 0xBF < 0x80 + r % 64) := by omega
    simp only [List.cons_append, List.nil_append, decodeRune, decode4, e1, e2, e3, e3', e6, e7,
      e8, if_true, if_false, List.length_cons, List.length_nil, Prod.mk.injEq]
    refine ⟨?_, trivial⟩
    omega

theorem encodeRune_high (r : Nat) (h : ¬ r < 0x80) :
    ∃ b bs, encodeRune r = b :: bs ∧ 0x80 ≤ b ∧ 1 ≤ bs.length ∧ ∀ x ∈ bs, 0x80 ≤ x := by
  unfold encodeRune
  split_ifs with h1 h2 h3
  · exact ⟨_, _, rfl, by omega, by simp, by simp⟩
  · exact ⟨_, _, rfl, by omega, by simp, by simp⟩
  · exact ⟨_, _, rfl, by omega, by simp, by simp⟩
  · exact ⟨_, _, rfl, by omega, by simp, by simp⟩

theorem encodeRune_ascii (r : Nat) (h : r < 0x80) : encodeRune r = [r] := by
  simp [encodeRune, h]

/-! ### Strings through the encoder and the decoder -/

theorem appendStringLoop_valid (runes : List Nat) (h : ∀ r ∈ runes, IsScalar r) :
    ∀ fuel, runes.length ≤ fuel →
      appendStringLoop fuel (runes.flatMap encodeRune) = runes.flatMap escRune := by
  induction runes with
  | nil => intro fuel _; cases fuel <;> simp [appendStringLoop]
  | cons r rs ih =>
    intro fuel hf
    have hr : IsScalar r := h r (by simp)
    have hrs : ∀ x ∈ rs, IsScalar x := fun x hx => h x (by simp [hx])
    obtain ⟨f, rfl⟩ : ∃ f, fuel = f + 1 := ⟨fuel - 1, by simp at hf; omega⟩
    have hf' : rs.length ≤ f := by simp at hf; omega
    simp only [List.flatMap_cons]
    by_cases h80 : r < 0x80
    · rw [encodeRune_ascii r h80]
      simp only [List.cons_append, List.nil_append, appendStringLoop, h80, if_true, escRune]
      split_ifs <;> simp [ih hrs f hf']
    · obtain ⟨b, bs, hb, hb80, hlen, _⟩ := encodeRune_high r h80
      have hdec := decodeRune_encodeRune r (rs.flatMap encodeRune) hr
      rw [hb] at hdec ⊢
      have hb' : ¬ b < 0x80 := by omega
      simp only [List.cons_append, appendStringLoop, hb', if_false, List.append_eq]
      simp only [List.cons_append] at hdec
      rw [hdec]
      have hne : ¬ (r = RuneError ∧ (b :: bs).length = 1) := by
        simp only [List.length_cons]; omega
      simp only [hne, if_false, escRune, h80]
      have hdrop : List.drop ((b :: bs).length - 1) (bs ++ rs.flatMap encodeRune)
          = rs.flatMap encodeRune := by simp
      have htake : List.take (b :: bs).length (b :: (bs ++ rs.flatMap encodeRune)) = b :: bs := by
        rw [← List.cons_append]; simp
      rw [hdrop, htake, ih hrs f hf', hb]
      split_ifs <;> simp

theorem scanString_plain (c : Nat) (r : GoString) (h1 : c ≠ 0x22) (h2 : c ≠ 0x5C)
    (h3 : ¬ c < 0x20) :
    scanString (c :: r) = (scanString r).map (fun p => (c :: p.1, p.2)) := by
  rw [scanString.eq_def]
  simp [h1, h2, h3]

theorem scanString_simple (e : Nat) (r : GoString) (h1 : e ≠ 0x75)
    (h2 : isSimpleEscape e = true) :
    scanString (0x5C :: e :: r) = (scanString r).map (fun p => (0x5C :: e :: p.1, p.2)) := by
  rw [scanString.eq_def]
  simp [h1, h2]

theorem scanString_u (a b c d : Nat) (r : GoString)
    (h : (isHex a && isHex b && isHex c && isHex d) = true) :
    scanString (0x5C :: 0x75 :: a :: b :: c :: d :: r)
      = (scanString r).map (fun p => (0x5C :: 0x75 :: a :: b :: c :: d :: p.1, p.2)) := by
  rw [scanString.eq_def]
  simp only [h]
  simp

theorem scanString_quote (r : GoString) : scanString (0x22 :: r) = some ([], r) := by
  rw [scanString.eq_def]
  simp

theorem scanString_high (bs u : GoString) (h : ∀ x ∈ bs, 0x80 ≤ x) :
    scanString (bs ++ u) = (scanString u).map (fun p => (bs ++ p.1, p.2)) := by
  induction bs with
  | nil => cases h : scanString u <;> simp [h]
  | cons b rest ih =>
    have hb : 0x80 ≤ b := h b (by simp)
    rw [List.cons_append, scanString_plain b _ (by omega) (by omega) (by omega),
      ih (fun x hx => h x (by simp [hx]))]
    cases scanString u <;> simp

theorem escapeByte_shape (r : Nat) (h : r < 0x80) (hs : htmlSafe r = false) :
    (escapeByte r = [0x5C, (escapeByte r).getD 1 0] ∧ (escapeByte r).getD 1 0 ≠ 0x75 ∧
      isSimpleEscape ((escapeByte r).getD 1 0) = true ∧
      (unquoteLoop 1 (escapeByte r) = some [r])) ∨
    (escapeByte r = [0x5C, 0x75, 0x30, 0x30, hexDigit (r / 16), hexDigit (r % 16)] ∧
      (isHex 0x30 && isHex 0x30 && isHex (hexDigit (r / 16)) && isHex (hexDigit (r % 16))) = true ∧
      ((hexVal 0x30 * 16 + hexVal 0x30) * 16 + hexVal (hexDigit (r / 16))) * 16
        + hexVal (hexDigit (r % 16)) = r) := by
  interval_cases r <;> first
    | (exfalso; revert hs; decide)
    | decide

theorem scanString_escapeByte (r : Nat) (u : GoString) (h : r < 0x80)
    (hs : htmlSafe r = false) :
    scanString (escapeByte r ++ u) = (scanString u).map (fun p => (escapeByte r ++ p.1, p.2)) := by
  rcases escapeByte_shape r h hs with ⟨he, h1, h2, _⟩ | ⟨he, hh, _⟩
  · rw [he]
    simp only [List.cons_append, List.nil_append]
    rw [scanString_simple _ u h1 h2]
  · rw [he]
    simp only [List.cons_append, List.nil_append]
    rw [scanString_u _ _ _ _ u hh]

theorem scanString_escRune (r : Nat) (u : GoString) (h : IsScalar r) :
    scanString (escRune r ++ u) = (scanString u).map (fun p => (escRune r ++ p.1, p.2)) := by
  unfold escRune
  split_ifs with h80 hsafe hsep
  · have hs := hsafe
    simp only [htmlSafe, Bool.and_eq_true, decide_eq_true_eq, bne_iff_ne, ne_eq] at hs
    rw [List.cons_append, List.nil_append,
      scanString_plain r u (by tauto) (by tauto) (by omega)]
    rfl
  · exact scanString_escapeByte r u h80 (by simpa using hsafe)
  · have l : lit "\\u202" = [0x5C, 0x75, 0x32, 0x30, 0x32] := by decide
    rw [l]
    rcases hsep with rfl | rfl
    · simp only [List.cons_append, List.nil_append]
      rw [show hexDigit (0x2028 % 16) = 0x38 by decide, scanString_u _ _ _ _ u (by decide)]
    · simp only [List.cons_append, List.nil_append]
      rw [show hexDigit (0x2029 % 16) = 0x39 by decide, scanString_u _ _ _ _ u (by decide)]
  · obtain ⟨b, bs, hb, hb80, _, hbs⟩ := encodeRune_high r h80
    exact scanString_high _ u (by rw [hb]; intro x hx; simp at hx; rcases hx with rfl | hx
                                  · exact hb80
                                  · exact hbs x hx)

theorem scanString_escaped (runes : List Nat) (u : GoString) (h : ∀ r ∈ runes, IsScalar r) :
    scanString (runes.flatMap escRune ++ 0x22 :: u) = some (runes.flatMap escRune, u) := by
  induction runes with
  | nil => simp [scanString_quote]
  | cons r rs ih =>
    simp only [List.flatMap_cons, List.append_assoc]
    rw [scanString_escRune r _ (h r (by simp)), ih (fun x hx => h x (by simp [hx]))]
    simp

theorem unquoteLoop_step (f c : Nat) (r out rest : GoString)
    (h : unquoteStep c r = some (out, rest)) :
    unquoteLoop (f + 1) (c :: r) = (unquoteLoop f rest).map (fun t => out ++ t) := by
  rw [unquoteLoop, h]

theorem unquoteStep_u (a b c d : Nat) (r : GoString)
    (h : isHex a = true ∧ isHex b = true ∧ isHex c = true ∧ isHex d = true)
    (hs : ¬ (0xD800 ≤ ((hexVal a * 16 + hexVal b) * 16 + hexVal c) * 16 + hexVal d ∧
      ((hexVal a * 16 + hexVal b) * 16 + hexVal c) * 16 + hexVal d < 0xE000)) :
    unquoteStep 0x5C (0x75 :: a :: b :: c :: d :: r) =
      some (encodeRune (((hexVal a * 16 + hexVal b) * 16 + hexVal c) * 16 + hexVal d), r) := by
  simp [unquoteStep, unquoteEscape, unquoteU, getu4, h, hs]

theorem unquoteStep_escapeByte (r : Nat) (u : GoString) (h : r < 0x80)
    (hs : htmlSafe r = false) :
    ∃ c t, escapeByte r ++ u = c :: t ∧ unquoteStep c t = some ([r], u) := by
  by_cases hsimple : r = 0x22 ∨ r = 0x5C ∨ r = 8 ∨ r = 9 ∨ r = 0xA ∨ r = 0xC ∨ r = 0xD
  · rcases hsimple with rfl | rfl | rfl | rfl | rfl | rfl | rfl
    · exact ⟨0x5C, 0x22 :: u, by rw [show escapeByte 0x22 = [0x5C, 0x22] by decide]; rfl,
        by simp [unquoteStep, unquoteEscape]⟩
    · exact ⟨0x5C, 0x5C :: u, by rw [show escapeByte 0x5C = [0x5C, 0x5C] by decide]; rfl,
        by simp [unquoteStep, unquoteEscape]⟩
    · exact ⟨0x5C, 0x62 :: u, by rw [show escapeByte 8 = [0x5C, 0x62] by decide]; rfl,
        by simp [unquoteStep, unquoteEscape]⟩
    · exact ⟨0x5C, 0x74 :: u, by rw [show escapeByte 9 = [0x5C, 0x74] by decide]; rfl,
        by simp [unquoteStep, unquoteEscape]⟩
    · exact ⟨0x5C, 0x6E :: u, by rw [show escapeByte 0xA = [0x5C, 0x6E] by decide]; rfl,
        by simp [unquoteStep, unquoteEscape]⟩
    · exact ⟨0x5C, 0x66 :: u, by rw [show escapeByte 0xC = [0x5C, 0x66] by decide]; rfl,
        by simp [unquoteStep, unquoteEscape]⟩
    · exact ⟨0x5C, 0x72 :: u, by rw [show escapeByte 0xD = [0x5C, 0x72] by decide]; rfl,
        by simp [unquoteStep, unquoteEscape]⟩
  · rcases escapeByte_shape r h hs with ⟨he, h1, h2, _⟩ | ⟨he, hh, hv⟩
    · exfalso
      apply hsimple
      revert he h1 h2
      interval_cases r <;> first
        | (exfalso; revert hs; decide)
        | decide
    · refine ⟨0x5C, 0x75 :: 0x30 :: 0x30 :: hexDigit (r / 16) :: hexDigit (r % 16) :: u,
        by rw [he]; rfl, ?_⟩
      simp only [Bool.and_eq_true] at hh
      rw [unquoteStep_u _ _ _ _ u (by tauto) (by rw [hv]; omega), hv, encodeRune_ascii r h]

theorem unquoteStep_escRune (r : Nat) (u : GoString) (h : IsScalar r) :
    ∃ c t, escRune r ++ u = c :: t ∧ unquoteStep c t = some (encodeRune r, u) := by
  unfold escRune
  split_ifs with h80 hsafe hsep
  · have hs := hsafe
    simp only [htmlSafe, Bool.and_eq_true, decide_eq_true_eq, bne_iff_ne, ne_eq] at hs
    refine ⟨r, u, rfl, ?_⟩
    have e1 : ¬ r = 0x5C := by tauto
    have e2 : ¬ (r = 0x22 ∨ r < 0x20) := by omega
    simp [unquoteStep, e1, e2, h80, encodeRune_ascii r h80]
  · rw [encodeRune_ascii r h80]
    exact unquoteStep_escapeByte r u h80 (by simpa using hsafe)
  · have l : lit "\\u202" = [0x5C, 0x75, 0x32, 0x30, 0x32] := by decide
    rw [l]
    rcases hsep with rfl | rfl
    · refine ⟨0x5C, 0x75 :: 0x32 :: 0x30 :: 0x32 :: 0x38 :: u, rfl, ?_⟩
      rw [unquoteStep_u _ _ _ _ u (by decide) (by decide)]
      rfl
    · refine ⟨0x5C, 0x75 :: 0x32 :: 0x30 :: 0x32 :: 0x39 :: u, rfl, ?_⟩
      rw [unquoteStep_u _ _ _ _ u (by decide) (by decide)]
      rfl
  · obtain ⟨b, bs, hb, hb80, hlen, hbs⟩ := encodeRune_high r h80
    have hdec := decodeRune_encodeRune r u h
    rw [hb] at hdec ⊢
    refine ⟨b, bs ++ u, rfl, ?_⟩
    have e1 : ¬ b = 0x5C := by omega
    have e2 : ¬ (b = 0x22 ∨ b < 0x20) := by omega
    have e3 : ¬ b < 0x80 := by omega
    simp only [List.cons_append] at hdec
    simp only [unquoteStep, e1, e2, e3, if_false, hdec]
    simp [hb]

theorem unquoteLoop_escaped (runes : List Nat) (h : ∀ r ∈ runes, IsScalar r) :
    ∀ fuel, runes.length ≤ fuel →
      unquoteLoop fuel (runes.flatMap escRune) = some (runes.flatMap encodeRune) := by
  induction runes with
  | nil => intro fuel _; cases fuel <;> simp [unquoteLoop]
  | cons r rs ih =>
    intro fuel hf
    obtain ⟨f, rfl⟩ : ∃ f, fuel = f + 1 := ⟨fuel - 1, by simp at hf; omega⟩
    have hf' : rs.length ≤ f := by simp at hf; omega
    obtain ⟨c, t, hct, hstep⟩ := unquoteStep_escRune r (rs.flatMap escRune) (h r (by simp))
    simp only [List.flatMap_cons]
    rw [hct, unquoteLoop_step f c t _ _ hstep, ih (fun x hx => h x (by simp [hx])) f hf']
    rfl

theorem encodeRune_length (r : Nat) : 1 ≤ (encodeRune r).length := by
  unfold encodeRune
  split_ifs <;> simp

theorem escRune_length (r : Nat) : 1 ≤ (escRune r).length := by
  unfold escRune
  split_ifs with h80 hsafe hsep
  · simp
  · unfold escapeByte
    have h92 := encodeRune_length 92
    split_ifs <;> simp [lit] <;> omega
  · simp
  · exact encodeRune_length r

theorem flatMap_length_ge (g : Nat → GoString) (hg : ∀ r, 1 ≤ (g r).length) (runes : List Nat) :
    runes.length ≤ (runes.flatMap g).length := by
  induction runes with
  | nil => simp
  | cons r rs ih =>
    have := hg r
    simp only [List.flatMap_cons, List.length_append, List.length_cons]
    omega

/-! ### Values through the encoder and the scanner -/

theorem skipSpace_cons (c : Nat) (r : GoString) (h : isSpace c = false) :
    skipSpace (c :: r) = c :: r := by
  simp [skipSpace, h]

theorem appendString_valid (s : GoString) (h : ValidUTF8 s) :
    ∃ runes : List Nat, (∀ r ∈ runes, IsScalar r) ∧ s = runes.flatMap encodeRune ∧
      appendString s = 0x22 :: (runes.flatMap escRune ++ [0x22]) := by
  obtain ⟨runes, hr, hs⟩ := h
  refine ⟨runes, hr, hs, ?_⟩
  have hlen : runes.length ≤ s.length := by
    rw [hs]; exact flatMap_length_ge encodeRune encodeRune_length runes
  unfold appendString
  rw [hs] at hlen ⊢
  rw [appendStringLoop_valid runes hr _ hlen]
  rfl

theorem scan_unquote_string (s t : GoString) (h : ValidUTF8 s) :
    ∃ body, appendString s ++ t = 0x22 :: body ∧
      ∃ raw, scanString body = some (raw, t) ∧ unquote raw = some s := by
  obtain ⟨runes, hr, hs, ha⟩ := appendString_valid s h
  refine ⟨runes.flatMap escRune ++ 0x22 :: t, by rw [ha]; simp, runes.flatMap escRune,
    scanString_escaped runes t hr, ?_⟩
  unfold unquote
  rw [unquoteLoop_escaped runes hr _ (flatMap_length_ge escRune escRune_length runes), hs]

theorem parseValue_string (n : Nat) (s t : GoString) (h : ValidUTF8 s) :
    parseValue n (appendString s ++ t) = some (.str s, t) := by
  obtain ⟨body, hb, raw, hscan, hunq⟩ := scan_unquote_string s t h
  rw [hb, parseValue.eq_def]
  simp [skipSpace, isSpace, hscan, hunq]

theorem parseKey_string (s t : GoString) (h : ValidUTF8 s) :
    parseKey (appendString s ++ t) = some (s, t) := by
  obtain ⟨body, hb, raw, hscan, hunq⟩ := scan_unquote_string s t h
  rw [hb, parseKey, skipSpace_cons _ _ (by decide)]
  simp [hscan, hunq]

theorem joinComma_cons_cons (x y : GoString) (rest : List GoString) :
    joinComma (x :: y :: rest) = x ++ 0x2C :: joinComma (y :: rest) := by
  simp [joinComma]

theorem parseElems_join (pv : GoString → Option (JVal × GoString))
    (items : List (GoString × JVal)) (hne : items ≠ [])
    (hitems : ∀ i ∈ items, ReadsBack pv i.1 i.2) (t : GoString) :
    ∀ k, items.length ≤ k →
      parseElems pv k (joinComma (items.map Prod.fst) ++ 0x5D :: t)
        = some (items.map Prod.snd, t) := by
  induction items with
  | nil => exact absurd rfl hne
  | cons i rest ih =>
    intro k hk
    obtain ⟨f, rfl⟩ : ∃ f, k = f + 1 := ⟨k - 1, by simp at hk; omega⟩
    have hi := hitems i (by simp)
    cases rest with
    | nil =>
      simp only [List.map_cons, List.map_nil, joinComma]
      rw [parseElems, hi (0x5D :: t)]
      simp [skipSpace, isSpace]
    | cons j more =>
      have hrec := ih (by simp) (fun x hx => hitems x (by simp [hx])) f (by simp at hk ⊢; omega)
      simp only [List.map_cons] at hrec ⊢
      rw [joinComma_cons_cons, List.append_assoc, parseElems, hi]
      simp [skipSpace, isSpace, hrec]

theorem parseMembers_join (pv : GoString → Option (JVal × GoString))
    (items : List (GoString × GoString × JVal)) (hne : items ≠ [])
    (hitems : ∀ i ∈ items, ValidUTF8 i.1 ∧ ReadsBack pv i.2.1 i.2.2) (t : GoString) :
    ∀ k, items.length ≤ k →
      parseMembers pv k
          (joinComma (items.map (fun i => appendString i.1 ++ [0x3A] ++ i.2.1)) ++ 0x7D :: t)
        = some (items.map (fun i => (i.1, i.2.2)), t) := by
  induction items with
  | nil => exact absurd rfl hne
  | cons i rest ih =>
    intro k hk
    obtain ⟨f, rfl⟩ : ∃ f, k = f + 1 := ⟨k - 1, by simp at hk; omega⟩
    obtain ⟨hkey, hval⟩ := hitems i (by simp)
    cases rest with
    | nil =>
      simp only [List.map_cons, List.map_nil, joinComma, List.append_assoc]
      rw [parseMembers, parseKey_string _ _ hkey]
      simp [skipSpace, isSpace, hval (0x7D :: t)]
    | cons j more =>
      have hrec := ih (by simp) (fun x hx => hitems x (by simp [hx])) f (by simp at hk ⊢; omega)
      simp only [List.map_cons] at hrec ⊢
      rw [joinComma_cons_cons]
      simp only [List.append_assoc]
      rw [parseMembers, parseKey_string _ _ hkey]
      simp only [List.cons_append, List.nil_append, List.append_assoc] at hrec ⊢
      simp [skipSpace, isSpace, hval _, hrec]

/-! ### What the decoder yields is valid UTF-8 -/

theorem validUTF8_nil : ValidUTF8 [] := ⟨[], by simp, rfl⟩

theorem validUTF8_append (a b : GoString) (ha : ValidUTF8 a) (hb : ValidUTF8 b) :
    ValidUTF8 (a ++ b) := by
  obtain ⟨ra, h1, rfl⟩ := ha
  obtain ⟨rb, h2, rfl⟩ := hb
  refine ⟨ra ++ rb, ?_, by simp⟩
  intro r hr
  rcases List.mem_append.mp hr with h | h
  · exact h1 r h
  · exact h2 r h

theorem validUTF8_ascii (c : Nat) (h : c < 0x80) : ValidUTF8 [c] :=
  ⟨[c], by intro r hr; simp at hr; subst hr; left; omega, by simp [encodeRune_ascii c h]⟩

theorem validUTF8_encodeRune (x : Nat) : ValidUTF8 (encodeRune x) := by
  by_cases h : IsScalar x
  · exact ⟨[x], by simpa using h, by simp⟩
  · refine ⟨[0xFFFD], by intro r hr; simp at hr; subst hr; right; omega, ?_⟩
    unfold IsScalar at h
    have e1 : ¬ x < 0x80 := by omega
    have e2 : ¬ x < 0x800 := by omega
    have e3 : 0x10FFFF < x ∨ (0xD800 ≤ x ∧ x ≤ 0xDFFF) := by omega
    simp only [encodeRune, e1, e2, e3, if_true, if_false]
    simp [encodeRune]

theorem some_pair_fst {α β : Type} {a c : α} {b d : β} (h : some (a, b) = some (c, d)) :
    a = c := by
  injection h with h
  injection h

theorem unquoteU_valid (s out rest : GoString) (h : unquoteU s = some (out, rest)) :
    ValidUTF8 out := by
  unfold unquoteU at h
  split at h
  · cases h
  · split_ifs at h
    · split at h
      · split_ifs at h <;> (rw [← some_pair_fst h]; exact validUTF8_encodeRune _)
      · rw [← some_pair_fst h]; exact validUTF8_encodeRune _
    · rw [← some_pair_fst h]; exact validUTF8_encodeRune _

theorem unquoteStep_valid (c : Nat) (r out rest : GoString)
    (h : unquoteStep c r = some (out, rest)) : ValidUTF8 out := by
  unfold unquoteStep at h
  split_ifs at h with h1 h2 h3
  · unfold unquoteEscape at h
    split at h
    · cases h
    · split_ifs at h with g1 g2 g3 g4 g5 g6 g7
      · cases h; exact validUTF8_ascii _ (by omega)
      · cases h; exact validUTF8_ascii _ (by omega)
      · cases h; exact validUTF8_ascii _ (by omega)
      · cases h; exact validUTF8_ascii _ (by omega)
      · cases h; exact validUTF8_ascii _ (by omega)
      · cases h; exact validUTF8_ascii _ (by omega)
      · exact unquoteU_valid _ _ _ h
  · cases h; exact validUTF8_ascii _ h3
  · cases h; exact validUTF8_encodeRune _

theorem unquoteLoop_valid (fuel : Nat) : ∀ (raw out : GoString),
    unquoteLoop fuel raw = some out → ValidUTF8 out := by
  induction fuel with
  | zero =>
    intro raw out h
    cases raw with
    | nil => simp [unquoteLoop] at h; subst h; exact validUTF8_nil
    | cons c r => simp [unquoteLoop] at h
  | succ f ih =>
    intro raw out h
    cases raw with
    | nil => simp [unquoteLoop] at h; subst h; exact validUTF8_nil
    | cons c r =>
      rw [unquoteLoop] at h
      cases hs : unquoteStep c r with
      | none => simp [hs] at h
      | some p =>
        obtain ⟨o, rest⟩ := p
        simp only [hs] at h
        cases hl : unquoteLoop f rest with
        | none => simp [hl] at h
        | some t =>
          simp [hl] at h
          subst h
          exact validUTF8_append _ _ (unquoteStep_valid c r o rest hs) (ih rest t hl)

theorem parseKey_valid (s k r : GoString) (h : parseKey s = some (k, r)) : ValidUTF8 k := by
  unfold parseKey at h
  split at h
  · cases h
  · split_ifs at h
    split at h
    · cases h
    · rename_i raw r1 _
      cases hu : unquote raw with
      | none => simp [hu] at h
      | some t =>
        simp [hu] at h
        obtain ⟨rfl, _⟩ := h
        exact unquoteLoop_valid _ _ _ hu

theorem parseValue_strValid (n : Nat) (s r : GoString) (v : JVal)
    (h : parseValue n s = some (v, r)) : v.StrValid := by
  intro x hx
  subst hx
  rw [parseValue.eq_def] at h
  simp only at h
  split at h
  · cases h
  · split_ifs at h
    · split at h
      · cases h
      · split at h
        · cases h
        · split_ifs at h
          · cases h
          · simp at h
    · split at h
      · cases h
      · split at h
        · cases h
        · split_ifs at h
          · cases h
          · simp at h
    · split at h
      · cases h
      · rename_i raw r1 _
        cases hu : unquote raw with
        | none => simp [hu] at h
        | some t =>
          simp [hu] at h
          obtain ⟨rfl, _⟩ := h
          exact unquoteLoop_valid _ _ _ hu
    · simp at h
    · cases h
    · cases h
    · cases h

theorem parseMembers_valid (pv : GoString → Option (JVal × GoString))
    (hpv : ∀ s v r, pv s = some (v, r) → v.StrValid) :
    ∀ (k : Nat) (s : GoString) (ms : List (GoString × JVal)) (r : GoString),
      parseMembers pv k s = some (ms, r) → ∀ m ∈ ms, ValidUTF8 m.1 ∧ m.2.StrValid := by
  intro k
  induction k with
  | zero => intro s ms r h; simp [parseMembers] at h
  | succ f ih =>
    intro s ms r h
    rw [parseMembers] at h
    split at h
    · cases h
    · rename_i key r0 hkey
      split at h
      · cases h
      · split_ifs at h
        split at h
        · cases h
        · rename_i v r2 hv
          split at h
          · cases h
          · split_ifs at h
            · simp at h
              obtain ⟨a, ha, rfl⟩ := h
              intro m hmem
              rcases List.mem_cons.mp hmem with rfl | hmem
              · exact ⟨parseKey_valid _ _ _ hkey, hpv _ _ _ hv⟩
              · exact ih _ _ _ ha m hmem
            · simp at h
              obtain ⟨rfl, _⟩ := h
              intro m hmem
              simp at hmem
              subst hmem
              exact ⟨parseKey_valid _ _ _ hkey, hpv _ _ _ hv⟩

/-! ### The maps built by the decoder and the merge -/

theorem Entries.get_eq_none (es : Entries) (k : GoString) :
    es.get k = none ↔ k ∉ es.map Prod.fst := by
  induction es with
  | nil => simp [Entries.get]
  | cons e rest ih =>
    obtain ⟨a, b⟩ := e
    by_cases h : a = k
    · simp [Entries.get, h]
    · simp [Entries.get, h, ih, Ne.symm h]

theorem Entries.set_of_not_mem (es : Entries) (k v : GoString) (h : k ∉ es.map Prod.fst) :
    es.set k v = es ++ [(k, v)] := by
  induction es with
  | nil => rfl
  | cons e rest ih =>
    obtain ⟨a, b⟩ := e
    have ha : a ≠ k := fun e => h (by simp [e])
    have hr : k ∉ rest.map Prod.fst := fun e => h (by simp [e])
    simp [Entries.set, ha, ih hr]

theorem Entries.set_of_mem_keys (es : Entries) (k v : GoString) :
    (es.set k v).map Prod.fst =
      if k ∈ es.map Prod.fst then es.map Prod.fst else es.map Prod.fst ++ [k] := by
  induction es with
  | nil => simp [Entries.set]
  | cons e rest ih =>
    obtain ⟨a, b⟩ := e
    by_cases ha : a = k
    · simp [Entries.set, ha]
    · by_cases hk : k ∈ rest.map Prod.fst
      · simp [Entries.set, ha, ih, hk]
      · simp [Entries.set, ha, ih, hk, Ne.symm ha]

theorem Entries.mem_set (es : Entries) (k v : GoString) (e : GoString × GoString)
    (h : e ∈ es.set k v) : e = (k, v) ∨ e ∈ es := by
  induction es with
  | nil => simp [Entries.set] at h; exact Or.inl h
  | cons x rest ih =>
    obtain ⟨a, b⟩ := x
    by_cases ha : a = k
    · simp [Entries.set, ha] at h
      rcases h with h | h
      · exact Or.inl h
      · exact Or.inr (by simp [h])
    · simp [Entries.set, ha] at h
      rcases h with h | h
      · exact Or.inr (by simp [h])
      · rcases ih h with h | h
        · exact Or.inl h
        · exact Or.inr (by simp [h])

theorem Entries.set_wellFormed (es : Entries) (k v : GoString) (h : es.WellFormed)
    (hk : ValidUTF8 k) (hv : ValidUTF8 v) : (es.set k v).WellFormed := by
  refine ⟨?_, ?_⟩
  · rw [Entries.set_of_mem_keys]
    split_ifs with hmem
    · exact h.1
    · exact List.Nodup.append h.1 (by simp) (by simpa using hmem)
  · intro e he
    rcases Entries.mem_set es k v e he with rfl | he
    · exact ⟨hk, hv⟩
    · exact h.2 e he

theorem storeString_valid (v : JVal) (h : v.StrValid) : ValidUTF8 (storeString [] v).1 := by
  cases v with
  | str s => exact h s rfl
  | _ => exact validUTF8_nil

theorem storeMembers_wellFormed (ms : List (GoString × JVal)) :
    ∀ m : Entries, m.WellFormed → (∀ x ∈ ms, ValidUTF8 x.1 ∧ x.2.StrValid) →
      (storeMembers m ms).1.WellFormed := by
  induction ms with
  | nil => intro m hm _; exact hm
  | cons x rest ih =>
    intro m hm h
    obtain ⟨k, v⟩ := x
    obtain ⟨hk, hv⟩ := h (k, v) (by simp)
    simp only [storeMembers]
    exact ih _ (Entries.set_wellFormed m k _ hm hk (storeString_valid v hv))
      (fun y hy => h y (by simp [hy]))

theorem wellFormed_nil : Entries.WellFormed [] :=
  ⟨by simp, by simp⟩

theorem parseJSON_object_valid (s : GoString) (ms : List (GoString × JVal))
    (h : parseJSON s = some (.obj ms)) : ∀ x ∈ ms, ValidUTF8 x.1 ∧ x.2.StrValid := by
  unfold parseJSON at h
  split at h
  · cases h
  · rename_i v r hv
    split_ifs at h
    injection h with h
    subst h
    rw [parseValue.eq_def] at hv
    simp only at hv
    split at hv
    · cases hv
    · split_ifs at hv
      · split at hv
        · cases hv
        · split at hv
          · cases hv
          · split_ifs at hv
            · simp at hv
              obtain ⟨rfl, _⟩ := hv
              simp
            · rw [Option.map_eq_some'] at hv
              obtain ⟨p, hp, heq⟩ := hv
              obtain ⟨a, b⟩ := p
              simp only [Prod.mk.injEq, JVal.obj.injEq] at heq
              obtain ⟨rfl, _⟩ := heq
              exact parseMembers_valid _ (fun s v r => parseValue_strValid _ s r v) _ _ _ _ hp
      · split at hv
        · cases hv
        · split at hv
          · cases hv
          · split_ifs at hv <;> simp at hv
      · split at hv
        · cases hv
        · simp at hv
      · simp at hv
      · simp at hv
      · simp at hv
      · simp at hv

theorem unmarshalOptions_wellFormed (s : GoString) (es : Entries)
    (h : UnmarshalOptions s = some es) : es.WellFormed := by
  unfold UnmarshalOptions jsonUnmarshalMap at h
  split_ifs at h
  cases hp : parseJSON s with
  | none => simp [hp] at h
  | some v =>
    cases v with
    | obj ms =>
      simp [hp, storeMap] at h
      subst h
      exact storeMembers_wellFormed ms [] wellFormed_nil (parseJSON_object_valid s ms hp)
    | _ => simp [hp, storeMap] at h

theorem mergeLoop_wellFormed (o : Entries) :
    ∀ c : Entries, c.WellFormed → (∀ e ∈ o, ValidUTF8 e.1 ∧ ValidUTF8 e.2) →
      (mergeLoop o c).WellFormed := by
  induction o with
  | nil => intro c hc _; exact hc
  | cons e rest ih =>
    intro c hc h
    obtain ⟨k, v⟩ := e
    obtain ⟨hk, hv⟩ := h (k, v) (by simp)
    simp only [mergeLoop]
    refine ih _ ?_ (fun y hy => h y (by simp [hy]))
    split_ifs
    · exact hc
    · exact Entries.set_wellFormed c k v hc hk hv

theorem mergeOptions_wellFormed (d r : GoString) (es : Entries)
    (h : mergeOptions (UnmarshalOptions d) (UnmarshalOptions r) = some es) :
    es.WellFormed := by
  cases hr : UnmarshalOptions r with
  | none =>
    rw [hr] at h
    exact unmarshalOptions_wellFormed d es h
  | some c =>
    have hc := unmarshalOptions_wellFormed r c hr
    cases hd : UnmarshalOptions d with
    | none =>
      rw [hr, hd] at h
      simp [mergeOptions] at h
      subst h
      exact hc
    | some o =>
      rw [hr, hd] at h
      simp [mergeOptions] at h
      subst h
      exact mergeLoop_wellFormed o c hc (unmarshalOptions_wellFormed d o hd).2

/-! ### Arrays and objects through the encoder and the scanner -/

theorem insertEntry_perm (e : GoString × GoString) (l : Entries) :
    (insertEntry e l).Perm (e :: l) := by
  induction l with
  | nil => exact List.Perm.refl _
  | cons f rest ih =>
    simp only [insertEntry]
    split_ifs
    · exact List.Perm.refl _
    · exact (List.Perm.cons f ih).trans (List.Perm.swap e f rest)

theorem sortEntries_perm (l : Entries) : (sortEntries l).Perm l := by
  induction l with
  | nil => exact List.Perm.refl _
  | cons e rest ih =>
    simp only [sortEntries]
    exact (insertEntry_perm e _).trans (List.Perm.cons e ih)

theorem Entries.get_eq_some (es : Entries) (k v : GoString)
    (hn : (es.map Prod.fst).Nodup) : es.get k = some v ↔ (k, v) ∈ es := by
  induction es with
  | nil => simp [Entries.get]
  | cons e rest ih =>
    obtain ⟨a, b⟩ := e
    simp only [List.map_cons, List.nodup_cons] at hn
    by_cases ha : a = k
    · subst ha
      simp only [Entries.get, if_true, Option.some.injEq, List.mem_cons, Prod.mk.injEq, true_and]
      constructor
      · intro h; exact Or.inl h.symm
      · rintro (h | h)
        · exact h.symm
        · exact absurd (List.mem_map_of_mem Prod.fst h) hn.1
    · simp [Entries.get, ha, ih hn.2, Ne.symm ha]

theorem Entries.get_perm (l₁ l₂ : Entries) (h : l₁.Perm l₂) (hn : (l₁.map Prod.fst).Nodup)
    (k : GoString) : l₁.get k = l₂.get k := by
  have hn2 : (l₂.map Prod.fst).Nodup := (h.map Prod.fst).nodup_iff.mp hn
  apply Option.ext
  intro v
  simp only [Option.mem_def]
  rw [Entries.get_eq_some l₁ k v hn, Entries.get_eq_some l₂ k v hn2]
  exact h.mem_iff

theorem sortEntries_wellFormed (es : Entries) (h : es.WellFormed) :
    (sortEntries es).WellFormed :=
  ⟨((sortEntries_perm es).map Prod.fst).nodup_iff.mpr h.1,
    fun e he => h.2 e ((sortEntries_perm es).mem_iff.mp he)⟩

theorem storeMembers_fresh (l : Entries) :
    ∀ m : Entries, ((m ++ l).map Prod.fst).Nodup →
      storeMembers m (l.map (fun e => (e.1, JVal.str e.2))) = (m ++ l, false) := by
  induction l with
  | nil => intro m _; simp [storeMembers]
  | cons e rest ih =>
    intro m hn
    obtain ⟨k, v⟩ := e
    have hk : k ∉ m.map Prod.fst := by
      simp only [List.map_append, List.map_cons] at hn
      have := (List.nodup_append.mp hn).2.2
      intro hmem
      exact this hmem (by simp) 
    have hn' : ((m ++ [(k, v)] ++ rest).map Prod.fst).Nodup := by
      simpa using hn
    simp only [List.map_cons, storeMembers, storeString, Entries.set_of_not_mem m k v hk]
    rw [ih _ hn']
    simp

theorem joinComma_length (xs : List GoString) (h : ∀ x ∈ xs, 1 ≤ x.length) :
    xs.length ≤ (joinComma xs).length := by
  induction xs with
  | nil => simp
  | cons x rest ih =>
    have hx := h x (by simp)
    cases rest with
    | nil => simpa [joinComma] using hx
    | cons y more =>
      have := ih (fun z hz => h z (by simp [hz]))
      rw [joinComma_cons_cons]
      simp only [List.length_append, List.length_cons] at this ⊢
      omega

theorem joinComma_head (b t : GoString) (xs : List GoString) :
    ∃ body, joinComma ((0x22 :: b) :: xs) ++ t = 0x22 :: body := by
  cases xs with
  | nil => exact ⟨b ++ t, by simp [joinComma]⟩
  | cons y ys => exact ⟨b ++ 0x2C :: joinComma (y :: ys) ++ t, by simp [joinComma]⟩

theorem appendString_cons (s : GoString) :
    appendString s = 0x22 :: (appendStringLoop s.length s ++ [0x22]) := rfl

theorem parseValue_array (n : Nat) (x : GoString) (xs : List GoString)
    (h : ∀ a ∈ x :: xs, ValidUTF8 a) :
    ReadsBack (parseValue (n + 1)) (encodeValue (.strSlice (some (x :: xs))))
      (.arr ((x :: xs).map JVal.str)) := by
  intro t
  have hitems : ∀ i ∈ (x :: xs).map (fun a => (appendString a, JVal.str a)),
      ReadsBack (parseValue n) i.1 i.2 := by
    intro i hi
    obtain ⟨a, ha, rfl⟩ := List.mem_map.mp hi
    exact fun t => parseValue_string n a t (h a ha)
  have hjoin := parseElems_join (parseValue n)
    ((x :: xs).map (fun a => (appendString a, JVal.str a))) (by simp) hitems t
  simp only [List.map_map] at hjoin
  have hfst : (Prod.fst ∘ fun a => (appendString a, JVal.str a)) = appendString := rfl
  have hsnd : (Prod.snd ∘ fun a => (appendString a, JVal.str a)) = JVal.str := rfl
  rw [hfst, hsnd] at hjoin
  obtain ⟨body, hbody⟩ : ∃ body, joinComma ((x :: xs).map appendString) ++ 0x5D :: t
      = 0x22 :: body := by
    simp only [List.map_cons, appendString_cons x]
    exact joinComma_head _ _ _
  have hlen : ((x :: xs).map (fun a => (appendString a, JVal.str a))).length
      ≤ (joinComma ((x :: xs).map appendString) ++ 0x5D :: t).length + 1 := by
    have := joinComma_length ((x :: xs).map appendString) (by
      intro z hz
      obtain ⟨a, _, rfl⟩ := List.mem_map.mp hz
      simp [appendString_cons])
    simp only [List.length_map, List.length_append] at this ⊢
    omega
  have hres := hjoin _ hlen
  have henc : encodeValue (.strSlice (some (x :: xs))) ++ t
      = 0x5B :: (joinComma ((x :: xs).map appendString) ++ 0x5D :: t) := by
    simp [encodeValue]
  rw [henc, parseValue.eq_def]
  simp only [skipSpace, isSpace]
  simp only [hbody] at hres ⊢
  simp [skipSpace, isSpace]
  simpa using hres

theorem parseValue_object (n : Nat) (e : GoString × GoString) (es : Entries)
    (h : ∀ a ∈ e :: es, ValidUTF8 a.1 ∧ ValidUTF8 a.2) :
    ReadsBack (parseValue (n + 1)) (encodeValue (.strMap (some (e :: es))))
      (.obj ((sortEntries (e :: es)).map (fun a => (a.1, JVal.str a.2)))) := by
  intro t
  have hperm := sortEntries_perm (e :: es)
  obtain ⟨e', es', hsorted⟩ : ∃ e' es', sortEntries (e :: es) = e' :: es' := by
    cases hs : sortEntries (e :: es) with
    | nil => rw [hs] at hperm; simpa using hperm.length_eq
    | cons a b => exact ⟨a, b, rfl⟩
  have hvalid : ∀ a ∈ e' :: es', ValidUTF8 a.1 ∧ ValidUTF8 a.2 := by
    intro a ha
    rw [← hsorted] at ha
    exact h a (hperm.mem_iff.mp ha)
  have hitems : ∀ i ∈ (e' :: es').map (fun a => (a.1, appendString a.2, JVal.str a.2)),
      ValidUTF8 i.1 ∧ ReadsBack (parseValue n) i.2.1 i.2.2 := by
    intro i hi
    obtain ⟨a, ha, rfl⟩ := List.mem_map.mp hi
    exact ⟨(hvalid a ha).1, fun t => parseValue_string n a.2 t (hvalid a ha).2⟩
  have hjoin := parseMembers_join (parseValue n)
    ((e' :: es').map (fun a => (a.1, appendString a.2, JVal.str a.2))) (by simp) hitems t
  simp only [List.map_map] at hjoin
  have hfst : ((fun i : GoString × GoString × JVal => appendString i.1 ++ [0x3A] ++ i.2.1) ∘
      fun a : GoString × GoString => (a.1, appendString a.2, JVal.str a.2))
      = fun a => appendString a.1 ++ [0x3A] ++ appendString a.2 := rfl
  have hsnd : ((fun i : GoString × GoString × JVal => (i.1, i.2.2)) ∘
      fun a : GoString × GoString => (a.1, appendString a.2, JVal.str a.2))
      = fun a => (a.1, JVal.str a.2) := rfl
  rw [hfst, hsnd] at hjoin
  obtain ⟨body, hbody⟩ : ∃ body,
      joinComma ((e' :: es').map (fun a => appendString a.1 ++ [0x3A] ++ appendString a.2))
        ++ 0x7D :: t = 0x22 :: body := by
    simp only [List.map_cons, appendString_cons e'.1, List.cons_append]
    exact joinComma_head _ _ _
  have hlen : ((e' :: es').map (fun a => (a.1, appendString a.2, JVal.str a.2))).length
      ≤ (joinComma ((e' :: es').map
          (fun a => appendString a.1 ++ [0x3A] ++ appendString a.2)) ++ 0x7D :: t).length + 1 := by
    have := joinComma_length ((e' :: es').map
        (fun a => appendString a.1 ++ [0x3A] ++ appendString a.2)) (by
      intro z hz
      obtain ⟨a, _, rfl⟩ := List.mem_map.mp hz
      simp [appendString_cons])
    simp only [List.length_map, List.length_append] at this ⊢
    omega
  have hres := hjoin _ hlen
  have henc : encodeValue (.strMap (some (e :: es))) ++ t
      = 0x7B :: (joinComma ((e' :: es').map
          (fun a => appendString a.1 ++ [0x3A] ++ appendString a.2)) ++ 0x7D :: t) := by
    simp [encodeValue, hsorted]
  rw [henc, parseValue.eq_def, hsorted]
  simp only [skipSpace, isSpace]
  simp only [hbody] at hres ⊢
  simp [skipSpace, isSpace]
  simpa using hres

/-! ### The message through `json.Marshal` and `json.Unmarshal` -/

theorem validUTF8_lit (s : String) : ValidUTF8 (lit s) := by
  refine ⟨s.toList.map Char.toNat, ?_, ?_⟩
  · intro r hr
    obtain ⟨c, _, rfl⟩ := List.mem_map.mp hr
    have hv := c.valid
    unfold IsScalar
    unfold UInt32.isValidChar Nat.isValidChar at hv
    show c.val.toNat < 0xD800 ∨ (0xE000 ≤ c.val.toNat ∧ c.val.toNat ≤ 0x10FFFF)
    omega
  · unfold lit
    induction s.toList with
    | nil => rfl
    | cons c cs ih => simp [List.flatMap_cons, ih]

set_option maxRecDepth 100000 in
theorem appendString_names :
    appendString (lit "message") = 0x22 :: (lit "message" ++ [0x22]) ∧
    appendString (lit "docker.name") = 0x22 :: (lit "docker.name" ++ [0x22]) ∧
    appendString (lit "docker.id") = 0x22 :: (lit "docker.id" ++ [0x22]) ∧
    appendString (lit "docker.image") = 0x22 :: (lit "docker.image" ++ [0x22]) ∧
    appendString (lit "docker.hostname") = 0x22 :: (lit "docker.hostname" ++ [0x22]) ∧
    appendString (lit "docker.args") = 0x22 :: (lit "docker.args" ++ [0x22]) ∧
    appendString (lit "options") = 0x22 :: (lit "options" ++ [0x22]) ∧
    appendString (lit "instance-id") = 0x22 :: (lit "instance-id" ++ [0x22]) := by
  decide

theorem marshal_items (msg : LogstashMessage) :
    encodeFields 0x7B msg.fields =
      0x7B :: (joinComma ((messageItems msg).map
        (fun i => appendString i.1 ++ [0x3A] ++ i.2.1)) ++ [0x7D]) := by
  obtain ⟨h1, h2, h3, h4, h5, h6, h7, h8⟩ := appendString_names
  obtain ⟨message, name, id, image, hostname, args, options, iid⟩ := msg
  have hstr : ∀ t, encodeValue (.str t) = appendString t := fun _ => rfl
  rcases args with _ | _ | ⟨a, as⟩ <;> rcases options with _ | _ | ⟨o, os⟩ <;>
    rcases iid with _ | ⟨i, is⟩ <;>
    simp [LogstashMessage.fields, encodeFields, isEmptyValue, messageItems, joinComma,
      h1, h2, h3, h4, h5, h6, h7, h8, hstr]

theorem messageItems_readBack (msg : LogstashMessage) (hv : msg.Valid) (n : Nat) :
    ∀ i ∈ messageItems msg, ValidUTF8 i.1 ∧ ReadsBack (parseValue (n + 1)) i.2.1 i.2.2 := by
  obtain ⟨v1, v2, v3, v4, v5, v6, v7, v8⟩ := hv
  intro i hi
  simp only [messageItems, List.mem_append, List.mem_cons, List.mem_singleton,
    List.not_mem_nil, or_false] at hi
  rcases hi with ((hi | hi) | hi) | hi
  · rcases hi with rfl | rfl | rfl | rfl | rfl
    · exact ⟨validUTF8_lit _, fun t => parseValue_string _ _ t v1⟩
    · exact ⟨validUTF8_lit _, fun t => parseValue_string _ _ t v2⟩
    · exact ⟨validUTF8_lit _, fun t => parseValue_string _ _ t v3⟩
    · exact ⟨validUTF8_lit _, fun t => parseValue_string _ _ t v4⟩
    · exact ⟨validUTF8_lit _, fun t => parseValue_string _ _ t v5⟩
  · split at hi
    · rename_i x xs hargs
      simp only [List.mem_singleton] at hi
      subst hi
      exact ⟨validUTF8_lit _, parseValue_array n x xs (by rw [hargs] at v6; exact v6)⟩
    · simp at hi
  · split at hi
    · rename_i e es hopts
      simp only [List.mem_singleton] at hi
      subst hi
      exact ⟨validUTF8_lit _, parseValue_object n e es (v7 _ hopts).2⟩
    · simp at hi
  · split at hi
    · simp at hi
    · rename_i c cs hiid
      simp only [List.mem_singleton] at hi
      subst hi
      exact ⟨validUTF8_lit _, fun t => parseValue_string _ _ t (by rw [hiid] at v8; exact v8)⟩

theorem parseJSON_message (msg : LogstashMessage) (hv : msg.Valid) :
    parseJSON (encodeFields 0x7B msg.fields)
      = some (.obj ((messageItems msg).map (fun i => (i.1, i.2.2)))) := by
  have hitems := messageItems_readBack msg hv 9998
  have hne : messageItems msg ≠ [] := by simp [messageItems]
  have hjoin := parseMembers_join (parseValue 9999) (messageItems msg) hne hitems []
  obtain ⟨body, hbody⟩ : ∃ body, joinComma ((messageItems msg).map
      (fun i : GoString × GoString × JVal => appendString i.1 ++ [0x3A] ++ i.2.1)) ++ [0x7D]
        = 0x22 :: body := by
    simp only [messageItems, List.map_append, List.map_cons, List.cons_append,
      appendString_cons (lit "message")]
    exact joinComma_head _ _ _
  have hlen : (messageItems msg).length ≤ (joinComma ((messageItems msg).map
      (fun i : GoString × GoString × JVal => appendString i.1 ++ [0x3A] ++ i.2.1))
        ++ [0x7D]).length + 1 := by
    have := joinComma_length ((messageItems msg).map
        (fun i : GoString × GoString × JVal => appendString i.1 ++ [0x3A] ++ i.2.1)) (by
      intro z hz
      obtain ⟨a, _, rfl⟩ := List.mem_map.mp hz
      simp [appendString_cons])
    simp only [List.length_map, List.length_append] at this ⊢
    omega
  have hres := hjoin _ hlen
  rw [marshal_items]
  unfold parseJSON
  rw [show maxNestingDepth = 9999 + 1 from rfl, parseValue.eq_def]
  simp only [skipSpace, isSpace]
  simp only [hbody] at hres ⊢
  simp [skipSpace, isSpace]
  simp only [List.length_cons] at hres
  rw [hres]
  simp [skipSpace]

theorem storeElems_strs (l : List GoString) :
    ∀ old, storeElems old (l.map JVal.str) = (l, false) := by
  induction l with
  | nil => intro old; rfl
  | cons x xs ih => intro old; simp [storeElems, storeString, ih]

set_option maxRecDepth 100000 in
theorem findField_names :
    findField (lit "message") = some 0 ∧ findField (lit "docker.name") = some 1 ∧
    findField (lit "docker.id") = some 2 ∧ findField (lit "docker.image") = some 3 ∧
    findField (lit "docker.hostname") = some 4 ∧ findField (lit "docker.args") = some 5 ∧
    findField (lit "options") = some 6 ∧ findField (lit "instance-id") = some 7 := by
  decide

theorem storeStruct_items (msg : LogstashMessage) (hv : msg.Valid) :
    storeStruct LogstashMessage.zero ((messageItems msg).map (fun i => (i.1, i.2.2))) =
      ({ Message := msg.Message, Name := msg.Name, ID := msg.ID, Image := msg.Image,
         Hostname := msg.Hostname,
         Args := (match msg.Args with
           | some (x :: xs) => some (x :: xs)
           | _ => none),
         Options := (match msg.Options with
           | some (e :: es) => some (sortEntries (e :: es))
           | _ => none),
         InstanceId := msg.InstanceId }, false) := by
  obtain ⟨f1, f2, f3, f4, f5, f6, f7, f8⟩ := findField_names
  have hopt : ∀ e es, msg.Options = some (e :: es) →
      storeMembers [] ((sortEntries (e :: es)).map (fun a => (a.1, JVal.str a.2)))
        = (sortEntries (e :: es), false) := by
    intro e es h
    have := storeMembers_fresh (sortEntries (e :: es)) []
      (by simpa using (sortEntries_wellFormed _ (hv.2.2.2.2.2.2.1 _ h)).1)
    simpa using this
  obtain ⟨message, name, id, image, hostname, args, options, iid⟩ := msg
  have hz : lit "" = [] := rfl
  rcases args with _ | _ | ⟨a, as⟩ <;> rcases options with _ | _ | ⟨o, os⟩ <;>
    rcases iid with _ | ⟨i, is⟩ <;>
    simp [messageItems, storeStruct, f1, f2, f3, f4, f5, f6, f7, f8, LogstashMessage.store,
      storeString, storeSlice, storeMap, LogstashMessage.zero, hz] <;>
    first
      | done
      | (try rw [← List.map_cons JVal.str, storeElems_strs])
        (try rw [hopt _ _ rfl])
        (try simp)

theorem buildMessage_valid (m : Message) (instance_id d r : GoString) (hm : m.ValidUTF8)
    (hi : ValidUTF8 instance_id) :
    (buildMessage m instance_id
      (mergeOptions (UnmarshalOptions d) (UnmarshalOptions r))).Valid := by
  obtain ⟨h1, h2, h3, h4, h5, h6⟩ := hm
  exact ⟨h1, h2, h3, h4, h5, h6, fun es h => mergeOptions_wellFormed d r es h, hi⟩

theorem unmarshal_marshal (msg : LogstashMessage) (hv : msg.Valid) :
    jsonUnmarshalMessage (encodeFields 0x7B msg.fields) LogstashMessage.zero =
      ({ Message := msg.Message, Name := msg.Name, ID := msg.ID, Image := msg.Image,
         Hostname := msg.Hostname,
         Args := (match msg.Args with
           | some (x :: xs) => some (x :: xs)
           | _ => none),
         Options := (match msg.Options with
           | some (e :: es) => some (sortEntries (e :: es))
           | _ => none),
         InstanceId := msg.InstanceId }, false) := by
  unfold jsonUnmarshalMessage
  rw [parseJSON_message msg hv]
  exact storeStruct_items msg hv

theorem mapEq_sorted (msg : LogstashMessage) (hv : msg.Valid) :
    MapEq (match msg.Options with
        | some (e :: es) => some (sortEntries (e :: es))
        | _ => none) msg.Options := by
  intro k
  split
  · rename_i e es h
    rw [h]
    exact Entries.get_perm _ _ (sortEntries_perm _) (sortEntries_wellFormed _ (hv.2.2.2.2.2.2.1 _ h)).1 k
  · rename_i h
    cases ho : msg.Options with
    | none => rfl
    | some es =>
      cases es with
      | nil => rfl
      | cons e es => exact absurd ho (h e es)

/-! ## The claims -/

/-- C1: for every default mapping D (nil or not) and every non-nil per-record
mapping R, the merged options of Stream are a non-nil mapping in which a key
maps to the value R gives it when R has the key, to the value D gives it when
only D has the key, and is absent when neither has it; with D = a:1, b:2 and
R = b:9, c:3 (also when both are read from their JSON text) the merged options
are written a:1, b:9, c:3. -/
theorem merged_options_keys :
    (∀ (D : GoMap) (R : Entries) (k : GoString),
      (mergeOptions D (some R)).isSome = true ∧
      (mergeOptions D (some R)).get k =
        match R.get k with
        | some v => some v
        | none => D.get k) ∧
    encodeValue (.strMap (mergeOptions
        (some [(lit "a", lit "1"), (lit "b", lit "2")])
        (some [(lit "b", lit "9"), (lit "c", lit "3")])))
      = lit "\x7b\"a\":\"1\",\"b\":\"9\",\"c\":\"3\"\x7d" ∧
    encodeValue (.strMap (mergeOptions
        (UnmarshalOptions (lit "\x7b\"a\":\"1\",\"b\":\"2\"\x7d"))
        (UnmarshalOptions (GetLogspoutOptionsString
          (some [lit "LOGSPOUT_OPTIONS=\x7b\"b\":\"9\",\"c\":\"3\"\x7d"])))))
      = lit "\x7b\"a\":\"1\",\"b\":\"9\",\"c\":\"3\"\x7d" := by
  refine ⟨fun D R k => ⟨?_, ?_⟩, by decide, by decide⟩
  · cases D <;> rfl
  · rw [mergeOptions_get]
    cases R.get k <;> rfl

/-- C2: when every record whose first write fails is answered by a found
transport, a successful dial and a successful second write, Stream ends
without a fatal error with every record received, and its successful writes
are exactly the serialised envelopes of the records in their order of arrival,
one for each record; every failed write is followed at once by the lookup, the
dial and a successful write of the same bytes to the connection just dialed;
every write goes to the connection stored at that time, and the adapter ends
holding the connection dialed last. -/
theorem stream_writes_each_record_once (a : LogstashAdapter) (environ : Environ)
    (http : Option (Option GoString)) (logstream : List (Message × Attempt))
    (h : ∀ p ∈ logstream, p.2.recovers = true) :
    (a.Stream environ http logstream).fatal = false ∧
    (a.Stream environ http logstream).unread = [] ∧
    successfulWrites (a.Stream environ http logstream).trace
      = logstream.map (fun p =>
          envelope (UnmarshalOptions (getopt environ (lit "OPTIONS") (lit "")))
            (instanceId http) p.1) ∧
    retriesFollow (a.Stream environ http logstream).trace = true ∧
    writesToStored a.conn (a.Stream environ http logstream).trace = true ∧
    (a.Stream environ http logstream).adapter.conn
      = storedConn a.conn (a.Stream environ http logstream).trace := by
  exact streamLoop_recovers _ (instanceId http) logstream a h

/-- C2 at three records, the second of which is written at the second attempt, on
the connection dialed for it. -/
theorem stream_writes_each_record_once_witness :
    (∀ p ∈ [(sampleRecord "one", writeOk), (sampleRecord "two", writeRetried),
        (sampleRecord "three", writeOk)], p.2.recovers = true) ∧
    successfulWrites (sampleAdapter.Stream emptyEnviron none
        [(sampleRecord "one", writeOk), (sampleRecord "two", writeRetried),
          (sampleRecord "three", writeOk)]).trace
      = [(sampleRecord "one", writeOk), (sampleRecord "two", writeRetried),
          (sampleRecord "three", writeOk)].map (fun p =>
          envelope (UnmarshalOptions (getopt emptyEnviron (lit "OPTIONS") (lit "")))
            (instanceId none) p.1) ∧
    (sampleAdapter.Stream emptyEnviron none
        [(sampleRecord "one", writeOk), (sampleRecord "two", writeRetried),
          (sampleRecord "three", writeOk)]).adapter.conn = 2 :=
  ⟨by decide,
    (stream_writes_each_record_once sampleAdapter emptyEnviron none _ (by decide)).2.2.1,
    by decide⟩

/-- C3: when the records before one are all delivered and that one has its
first write fail and then the transport not found, or the dial fail, or the
second write fail, Stream ends in the fatal state at that record: the records
after it are never received, the calls made are those of the run on the
records up to it alone and end with the fatal exit, and the successful writes
are those of the records before it. -/
theorem stream_fatal_stops (a : LogstashAdapter) (environ : Environ)
    (http : Option (Option GoString)) (before : List (Message × Attempt))
    (m : Message) (io : Attempt) (after : List (Message × Attempt))
    (hb : ∀ p ∈ before, p.2.recovers = true)
    (h1 : io.write1 = false)
    (h2 : io.reconnect.found = false ∨ io.reconnect.dial.isLeft = false ∨ io.write2 = false) :
    (a.Stream environ http (before ++ (m, io) :: after)).fatal = true ∧
    (a.Stream environ http (before ++ (m, io) :: after)).unread = after ∧
    (a.Stream environ http (before ++ (m, io) :: after)).trace
      = (a.Stream environ http (before ++ [(m, io)])).trace ∧
    (a.Stream environ http (before ++ (m, io) :: after)).trace.getLast? = some .fatal ∧
    successfulWrites (a.Stream environ http (before ++ (m, io) :: after)).trace
      = before.map (fun p =>
          envelope (UnmarshalOptions (getopt environ (lit "OPTIONS") (lit "")))
            (instanceId http) p.1) := by
  have hf : io.recovers = false := by
    rcases h2 with h2 | h2 | h2 <;> simp [Attempt.recovers, h1, h2]
  exact streamLoop_fatal _ (instanceId http) before m io after a hb hf

/-- C3 at three records: the first is written after a reconnection, the dial
fails for the second, the third is never received. -/
theorem stream_fatal_stops_witness :
    (∀ p ∈ [(sampleRecord "one", writeRetried)], p.2.recovers = true) ∧
    dialFails.write1 = false ∧
    (dialFails.reconnect.found = false ∨ dialFails.reconnect.dial.isLeft = false ∨
      dialFails.write2 = false) ∧
    (sampleAdapter.Stream emptyEnviron none
      ([(sampleRecord "one", writeRetried)] ++ (sampleRecord "two", dialFails) ::
        [(sampleRecord "three", writeOk)])).fatal = true ∧
    (sampleAdapter.Stream emptyEnviron none
      ([(sampleRecord "one", writeRetried)] ++ (sampleRecord "two", dialFails) ::
        [(sampleRecord "three", writeOk)])).unread = [(sampleRecord "three", writeOk)] :=
  ⟨by decide, by decide, by decide,
    (stream_fatal_stops sampleAdapter emptyEnviron none [(sampleRecord "one", writeRetried)]
      (sampleRecord "two") dialFails [(sampleRecord "three", writeOk)]
      (by decide) (by decide) (by decide)).1,
    (stream_fatal_stops sampleAdapter emptyEnviron none [(sampleRecord "one", writeRetried)]
      (sampleRecord "two") dialFails [(sampleRecord "three", writeOk)]
      (by decide) (by decide) (by decide)).2.1⟩

set_option maxRecDepth 100000 in
/-- C4: for every record, instance identity and merged options, json.Marshal
of the message built by Stream returns no error and one JSON object whose
members are message, docker.name, docker.id, docker.image and docker.hostname
in that order, with the record's Data, Container.Name, Container.ID,
Config.Image and Config.Hostname written as JSON strings, followed by
docker.args exactly when the argument list is neither nil nor empty, options
exactly when the merged options are neither nil nor empty, and instance-id
exactly when the identity is not the empty string; when the strings are valid
UTF-8 the scanner reads these bytes as the object of these members with the
strings themselves as values; the record hello of web1 with none of the three
optional values serialises to the bytes of the scenario. -/
theorem envelope_members :
    (∀ (m : Message) (instance_id : GoString) (container_options : GoMap),
      jsonMarshal (buildMessage m instance_id container_options) = .ok
        ([0x7B] ++ joinComma
          ([ jsonMember (lit "message") (appendString m.Data),
             jsonMember (lit "docker.name") (appendString m.Container.Name),
             jsonMember (lit "docker.id") (appendString m.Container.ID),
             jsonMember (lit "docker.image") (appendString m.Container.Config.Image),
             jsonMember (lit "docker.hostname") (appendString m.Container.Config.Hostname) ]
           ++ (if m.Container.Args = none ∨ m.Container.Args = some [] then []
               else [jsonMember (lit "docker.args") (encodeValue (.strSlice m.Container.Args))])
           ++ (if container_options = none ∨ container_options = some [] then []
               else [jsonMember (lit "options") (encodeValue (.strMap container_options))])
           ++ (if instance_id = lit "" then []
               else [jsonMember (lit "instance-id") (appendString instance_id)]))
          ++ [0x7D])) ∧
    (∀ (m : Message) (instance_id : GoString) (container_options : GoMap),
      (buildMessage m instance_id container_options).Valid →
      parseJSON (encodeFields 0x7B (buildMessage m instance_id container_options).fields)
        = some (.obj
          ([ (lit "message", JVal.str m.Data),
             (lit "docker.name", JVal.str m.Container.Name),
             (lit "docker.id", JVal.str m.Container.ID),
             (lit "docker.image", JVal.str m.Container.Config.Image),
             (lit "docker.hostname", JVal.str m.Container.Config.Hostname) ]
           ++ (match m.Container.Args with
               | some (x :: xs) => [(lit "docker.args", JVal.arr ((x :: xs).map JVal.str))]
               | _ => [])
           ++ (match container_options with
               | some (e :: es) =>
                 [(lit "options",
                   JVal.obj ((sortEntries (e :: es)).map (fun a => (a.1, JVal.str a.2))))]
               | _ => [])
           ++ (match instance_id with
               | [] => []
               | c :: cs => [(lit "instance-id", JVal.str (c :: cs))])))) ∧
    jsonMarshal (buildMessage
        { Data := lit "hello"
          Container :=
            { Name := lit "web1", ID := lit "abc123", Args := none
              Config := { Image := lit "nginx", Hostname := lit "h1", Env := some [] } } }
        (lit "") none)
      = .ok (lit "\x7b\"message\":\"hello\",\"docker.name\":\"web1\",\"docker.id\":\"abc123\",\"docker.image\":\"nginx\",\"docker.hostname\":\"h1\"\x7d") := by
  refine ⟨?_, ?_, by decide⟩
  · intro m instance_id container_options
    obtain ⟨data, ⟨name, id, args, ⟨image, hostname, env⟩⟩⟩ := m
    have hempty : lit "" = [] := rfl
    have hstr : ∀ t, encodeValue (.str t) = appendString t := fun _ => rfl
    rcases args with _ | _ | ⟨a, as⟩ <;> rcases container_options with _ | _ | ⟨o, os⟩ <;>
      rcases instance_id with _ | ⟨i, is⟩ <;>
      simp [jsonMarshal, buildMessage, LogstashMessage.fields, encodeFields, isEmptyValue,
        joinComma, jsonMember, hempty, hstr]
  · intro m instance_id container_options hv
    rw [parseJSON_message _ hv]
    obtain ⟨data, ⟨name, id, args, ⟨image, hostname, env⟩⟩⟩ := m
    rcases args with _ | _ | ⟨a, as⟩ <;> rcases container_options with _ | _ | ⟨o, os⟩ <;>
      rcases instance_id with _ | ⟨i, is⟩ <;>
      simp [messageItems, buildMessage]

/-- C5: the nil mapping is the identity of the merge of Stream on both sides,
and so is the empty mapping up to content. With a nil per-record mapping the
merged options are the default mapping itself, with a nil default mapping they
are the per-record mapping itself; with an empty per-record mapping they have
the keys and values of the default mapping, with an empty default mapping
those of the per-record mapping. The per-record mapping is nil when the record
has no environment, no entry that begins with LOGSPOUT_OPTIONS=, or a first
such entry with nothing after the prefix; the default mapping is nil when
OPTIONS is unset or empty. -/
theorem merge_absent_identity :
    (∀ D : GoMap, mergeOptions D none = D) ∧
    (∀ R : GoMap, mergeOptions none R = R) ∧
    (∀ D : GoMap, MapEq (mergeOptions D (some [])) D) ∧
    (∀ R : GoMap, MapEq (mergeOptions (some []) R) R) ∧
    UnmarshalOptions (GetLogspoutOptionsString none) = none ∧
    (∀ values : List GoString, (∀ e ∈ values, ¬ (lit "LOGSPOUT_OPTIONS=" <+: e)) →
      UnmarshalOptions (GetLogspoutOptionsString (some values)) = none) ∧
    (∀ before after : List GoString,
      (∀ e ∈ before, ¬ (lit "LOGSPOUT_OPTIONS=" <+: e)) →
      UnmarshalOptions (GetLogspoutOptionsString
        (some (before ++ lit "LOGSPOUT_OPTIONS=" :: after))) = none) ∧
    (∀ environ : Environ,
      environ (lit "OPTIONS") = none ∨ environ (lit "OPTIONS") = some (lit "") →
      UnmarshalOptions (getopt environ (lit "OPTIONS") (lit "")) = none) := by
  refine ⟨fun _ => rfl, ?_, ?_, ?_, ?_, ?_, ?_, ?_⟩
  · intro R
    cases R <;> rfl
  · intro D k
    rw [mergeOptions_get]
    rfl
  · intro R k
    cases R with
    | none => rfl
    | some c =>
      rw [mergeOptions_get]
      cases h : c.get k <;> simp [GoMap.get, Entries.get, h]
  · exact unmarshalOptions_empty
  · intro values h
    simp only [GetLogspoutOptionsString]
    rw [loop_no_match values h]
    exact unmarshalOptions_empty
  · intro before after h
    have := loop_first_match before after [] h
    simp only [List.append_nil] at this
    simp only [GetLogspoutOptionsString]
    rw [this]
    exact unmarshalOptions_empty
  · intro environ h
    have : getopt environ (lit "OPTIONS") (lit "") = lit "" := by
      rcases h with h | h <;> simp [getopt, Getenv, h]
    rw [this]
    exact unmarshalOptions_empty

/-- C6: GetLogspoutOptionsString returns the empty string for a nil list and
for a list in which no entry begins with LOGSPOUT_OPTIONS=, whatever the
entries contain after their first byte; and when an entry begins with the
prefix and none before it does (so in particular when it is the only one), it
returns what follows the prefix in that entry. -/
theorem GetLogspoutOptionsString_spec :
    GetLogspoutOptionsString none = lit "" ∧
    (∀ values : List GoString, (∀ e ∈ values, ¬ (lit "LOGSPOUT_OPTIONS=" <+: e)) →
      GetLogspoutOptionsString (some values) = lit "") ∧
    (∀ (before after : List GoString) (rest : GoString),
      (∀ e ∈ before, ¬ (lit "LOGSPOUT_OPTIONS=" <+: e)) →
      GetLogspoutOptionsString
        (some (before ++ (lit "LOGSPOUT_OPTIONS=" ++ rest) :: after)) = rest) ∧
    GetLogspoutOptionsString (some [lit "MY_LOGSPOUT_OPTIONS=x", lit "A=LOGSPOUT_OPTIONS=y"])
      = lit "" ∧
    GetLogspoutOptionsString
      (some [lit "PATH=/bin", lit "X_LOGSPOUT_OPTIONS=zz", lit "LOGSPOUT_OPTIONS=\x7b\"b\":\"9\"\x7d"])
      = lit "\x7b\"b\":\"9\"\x7d" := by
  refine ⟨rfl, fun values h => loop_no_match values h,
    fun before after rest h => loop_first_match before after rest h, by decide, by decide⟩

/-- C7, the claim as stated fails: the options string with a number as the
value of a key makes json.Unmarshal return an error, yet UnmarshalOptions
yields a mapping that holds the key with an empty value, and the merged
options differ from the default mapping. -/
theorem unmarshalOptions_type_error_keeps_map :
    (jsonUnmarshalMap (lit "\x7b\"a\":1\x7d") none).2 = true ∧
    UnmarshalOptions (lit "\x7b\"a\":1\x7d") = some [(lit "a", lit "")] ∧
    (mergeOptions (some [(lit "d", lit "1")]) (UnmarshalOptions (lit "\x7b\"a\":1\x7d"))).get (lit "a")
      ≠ GoMap.get (some [(lit "d", lit "1")]) (lit "a") := by
  decide

/-- C7, amended: for every options string that is not the text of a JSON
object (a syntax error, or another kind of value), the error or mismatch is
suppressed and UnmarshalOptions yields the nil mapping, so that as a
per-record value it leaves the merged options equal to the default mapping and
as a default it leaves them equal to the per-record mapping; the empty string
yields the nil mapping as well. -/
theorem unmarshalOptions_malformed (s : GoString)
    (h : ∀ ms, parseJSON s ≠ some (.obj ms)) :
    UnmarshalOptions s = none ∧
    (∀ D : GoMap, mergeOptions D (UnmarshalOptions s) = D) ∧
    (∀ R : GoMap, mergeOptions (UnmarshalOptions s) R = R) ∧
    UnmarshalOptions (lit "") = none := by
  have hs := unmarshalOptions_not_object s h
  refine ⟨hs, fun D => ?_, fun R => ?_, unmarshalOptions_empty⟩
  · rw [hs]; rfl
  · rw [hs]; cases R <;> rfl

/-- C7, amended, at an options string cut short after a comma. -/
theorem unmarshalOptions_malformed_witness :
    (∀ ms, parseJSON (lit "\x7b\"a\":\"1\",") ≠ some (.obj ms)) ∧
    UnmarshalOptions (lit "\x7b\"a\":\"1\",") = none := by
  have h : ∀ ms, parseJSON (lit "\x7b\"a\":\"1\",") ≠ some (.obj ms) := by
    intro ms hms
    have : (parseJSON (lit "\x7b\"a\":\"1\",")).isSome = false := by decide
    rw [hms] at this
    cases this
  exact ⟨h, (unmarshalOptions_malformed _ h).1⟩

set_option maxRecDepth 100000 in
/-- C8, the claim as stated fails: a record whose text is the byte FF, which
is not valid UTF-8, is serialised with the replacement character in its
place, and json.Unmarshal of the bytes returns, without error, a message
whose text is U+FFFD and not the original; and a record with an empty
argument list that is not nil comes back with a nil list. -/
theorem roundtrip_fails :
    (jsonUnmarshalMessage (envelope none (lit "") invalidRecord) LogstashMessage.zero).2 = false ∧
    (jsonUnmarshalMessage (envelope none (lit "") invalidRecord) LogstashMessage.zero).1.Message
      = [0xEF, 0xBF, 0xBD] ∧
    (jsonUnmarshalMessage (envelope none (lit "") invalidRecord) LogstashMessage.zero).1
      ≠ buildMessage invalidRecord (lit "") (mergeOptions none
          (UnmarshalOptions (GetLogspoutOptionsString invalidRecord.Container.Config.Env))) ∧
    (jsonUnmarshalMessage (envelope none (lit "") emptyArgsRecord) LogstashMessage.zero).1
      ≠ buildMessage emptyArgsRecord (lit "") (mergeOptions none
          (UnmarshalOptions (GetLogspoutOptionsString emptyArgsRecord.Container.Config.Env))) := by
  decide

/-- C8, amended: for every record whose text, name, id, image, hostname and
arguments are valid UTF-8 and every instance identity that is valid UTF-8,
json.Unmarshal of the envelope Stream serialises, into a zero LogstashMessage,
returns no error and a message with the same text, name, id, image, hostname
and instance identity as the one Stream built, with the same argument list
except that an empty list comes back nil, and with options that have the same
keys and values and are nil exactly when the options built are nil or empty. -/
theorem envelope_roundtrip (environ : Environ) (http : Option (Option GoString))
    (m : Message) (hm : m.ValidUTF8) (hi : ValidUTF8 (instanceId http)) :
    (jsonUnmarshalMessage
      (envelope (UnmarshalOptions (getopt environ (lit "OPTIONS") (lit ""))) (instanceId http) m)
      LogstashMessage.zero).2 = false ∧
    (jsonUnmarshalMessage
      (envelope (UnmarshalOptions (getopt environ (lit "OPTIONS") (lit ""))) (instanceId http) m)
      LogstashMessage.zero).1.Message = m.Data ∧
    (jsonUnmarshalMessage
      (envelope (UnmarshalOptions (getopt environ (lit "OPTIONS") (lit ""))) (instanceId http) m)
      LogstashMessage.zero).1.Name = m.Container.Name ∧
    (jsonUnmarshalMessage
      (envelope (UnmarshalOptions (getopt environ (lit "OPTIONS") (lit ""))) (instanceId http) m)
      LogstashMessage.zero).1.ID = m.Container.ID ∧
    (jsonUnmarshalMessage
      (envelope (UnmarshalOptions (getopt environ (lit "OPTIONS") (lit ""))) (instanceId http) m)
      LogstashMessage.zero).1.Image = m.Container.Config.Image ∧
    (jsonUnmarshalMessage
      (envelope (UnmarshalOptions (getopt environ (lit "OPTIONS") (lit ""))) (instanceId http) m)
      LogstashMessage.zero).1.Hostname = m.Container.Config.Hostname ∧
    (jsonUnmarshalMessage
      (envelope (UnmarshalOptions (getopt environ (lit "OPTIONS") (lit ""))) (instanceId http) m)
      LogstashMessage.zero).1.InstanceId = instanceId http ∧
    (jsonUnmarshalMessage
      (envelope (UnmarshalOptions (getopt environ (lit "OPTIONS") (lit ""))) (instanceId http) m)
      LogstashMessage.zero).1.Args
        = (if m.Container.Args = some [] then none else m.Container.Args) ∧
    MapEq (jsonUnmarshalMessage
      (envelope (UnmarshalOptions (getopt environ (lit "OPTIONS") (lit ""))) (instanceId http) m)
      LogstashMessage.zero).1.Options
      (mergeOptions (UnmarshalOptions (getopt environ (lit "OPTIONS") (lit "")))
        (UnmarshalOptions (GetLogspoutOptionsString m.Container.Config.Env))) ∧
    ((jsonUnmarshalMessage
      (envelope (UnmarshalOptions (getopt environ (lit "OPTIONS") (lit ""))) (instanceId http) m)
      LogstashMessage.zero).1.Options = none ↔
      (mergeOptions (UnmarshalOptions (getopt environ (lit "OPTIONS") (lit "")))
          (UnmarshalOptions (GetLogspoutOptionsString m.Container.Config.Env)) = none ∨
        mergeOptions (UnmarshalOptions (getopt environ (lit "OPTIONS") (lit "")))
          (UnmarshalOptions (GetLogspoutOptionsString m.Container.Config.Env)) = some [])) := by
  have hv := buildMessage_valid m (instanceId http) (getopt environ (lit "OPTIONS") (lit ""))
    (GetLogspoutOptionsString m.Container.Config.Env) hm hi
  have hrt := unmarshal_marshal _ hv
  have hmap := mapEq_sorted _ hv
  unfold envelope
  rw [hrt]
  refine ⟨rfl, rfl, rfl, rfl, rfl, rfl, rfl, ?_, hmap, ?_⟩
  · simp only [buildMessage]
    rcases m.Container.Args with _ | _ | ⟨x, xs⟩ <;> simp
  · simp only [buildMessage]
    rcases mergeOptions (UnmarshalOptions (getopt environ (lit "OPTIONS") (lit "")))
      (UnmarshalOptions (GetLogspoutOptionsString m.Container.Config.Env)) with _ | _ | ⟨e, es⟩ <;>
      simp

set_option maxRecDepth 100000 in
/-- C8, amended, at a record with arguments and options of its own, a default
OPTIONS and an instance identity. -/
theorem envelope_roundtrip_witness :
    fullRecord.ValidUTF8 ∧ ValidUTF8 (instanceId (some (some (lit "i-0abc")))) ∧
    (jsonUnmarshalMessage
      (envelope (UnmarshalOptions (getopt optionsEnviron (lit "OPTIONS") (lit "")))
        (instanceId (some (some (lit "i-0abc")))) fullRecord)
      LogstashMessage.zero).1.Message = fullRecord.Data ∧
    (jsonUnmarshalMessage
      (envelope (UnmarshalOptions (getopt optionsEnviron (lit "OPTIONS") (lit "")))
        (instanceId (some (some (lit "i-0abc")))) fullRecord)
      LogstashMessage.zero).1.Options
      = some [(lit "a", lit "1"), (lit "b", lit "9"), (lit "c", lit "3")] :=
  ⟨⟨validUTF8_lit _, validUTF8_lit _, validUTF8_lit _, validUTF8_lit _, validUTF8_lit _,
      by intro a ha
         simp only [fullRecord, Option.getD_some, List.mem_cons, List.mem_singleton,
           List.not_mem_nil, or_false] at ha
         rcases ha with rfl | rfl <;> exact validUTF8_lit _⟩,
    validUTF8_lit _,
    (envelope_roundtrip optionsEnviron (some (some (lit "i-0abc"))) fullRecord
      ⟨validUTF8_lit _, validUTF8_lit _, validUTF8_lit _, validUTF8_lit _, validUTF8_lit _,
        by intro a ha
           simp only [fullRecord, Option.getD_some, List.mem_cons, List.mem_singleton,
             List.not_mem_nil, or_false] at ha
           rcases ha with rfl | rfl <;> exact validUTF8_lit _⟩
      (validUTF8_lit _)).2.1,
    by decide⟩

/-- C9: the option merge of Stream is idempotent. For every default mapping D
and per-record mapping R, each nil or not, merging R over the merged result
gives a mapping with the same keys and values as the merged result, and it is
nil exactly when the merged result is. -/
theorem merge_idempotent (D R : GoMap) :
    MapEq (mergeOptions (mergeOptions D R) R) (mergeOptions D R) ∧
    ((mergeOptions (mergeOptions D R) R).isSome = (mergeOptions D R).isSome) := by
  cases R with
  | none => exact ⟨fun _ => rfl, rfl⟩
  | some c =>
    refine ⟨fun k => ?_, ?_⟩
    · rw [mergeOptions_get, mergeOptions_get]
      cases c.get k <;> rfl
    · cases D <;> rfl

/-- C10: NewLogstashAdapter first looks up the transport named by
AdapterTransport with the default udp, which is the kind written after the +
of the adapter name and udp when the name has no +. When the lookup fails it
returns the error "unable to find adapter: ..." and no adapter, and dials
nothing; when the lookup succeeds and the dial of the route's address with the
route's options fails it returns the error of the dial and no adapter, after
that one dial; when both succeed it returns the adapter that holds the route
and the dialed connection; and it returns an adapter only in that case. -/
theorem NewLogstashAdapter_spec (route : Route) (io : Connect) :
    (io.found = false →
      NewLogstashAdapter route io =
        (.inr (lit "unable to find adapter: " ++ route.Adapter),
          [.lookup (route.AdapterTransport (lit "udp")) false])) ∧
    (∀ err, io.found = true → io.dial = .inr err →
      NewLogstashAdapter route io =
        (.inr err, [.lookup (route.AdapterTransport (lit "udp")) true,
          .dial route.Address route.Options (.inr err)])) ∧
    (∀ conn, io.found = true → io.dial = .inl conn →
      NewLogstashAdapter route io =
        (.inl { route := route, conn := conn },
          [.lookup (route.AdapterTransport (lit "udp")) true,
            .dial route.Address route.Options (.inl conn)])) ∧
    ((∃ a, (NewLogstashAdapter route io).1 = .inl a) ↔
      (io.found = true ∧ ∃ conn, io.dial = .inl conn)) ∧
    (0x2B ∉ route.Adapter → route.AdapterTransport (lit "udp") = lit "udp") ∧
    (∀ name kind : GoString, 0x2B ∉ name → 0x2B ∉ kind →
      route.Adapter = name ++ 0x2B :: kind →
      route.AdapterTransport (lit "udp") = kind) := by
  refine ⟨?_, ?_, ?_, ?_, ?_, ?_⟩
  · intro h
    simp [NewLogstashAdapter, h]
  · intro err h hd
    simp [NewLogstashAdapter, h, hd]
  · intro conn h hd
    simp [NewLogstashAdapter, h, hd]
  · cases hf : io.found
    · simp [NewLogstashAdapter, hf]
    · cases hd : io.dial <;> simp [NewLogstashAdapter, hf, hd]
  · intro h
    simp [Route.AdapterTransport, split_no_sep _ _ h]
  · intro name kind hn hk he
    simp [Route.AdapterTransport, he, split_first_sep _ _ _ hn, split_no_sep _ _ hk]

end Logstash
